import Mathlib

/-!
Verification development for the laboratory asset cataloguing tool
(desktop workflow: capture → analyze → edit → commit → label).

The definitions below are a shallow embedding of the Python source:

* `JVal`                          — the structured-value domain of analysis
  results and configuration documents (strings, integers, lists, nested
  mappings; mappings are insertion-ordered association lists, as Python
  dicts are).
* `json_dumps` / `json_loads`     — model of Python's `json.dumps`
  (default separators, `ensure_ascii=False` escaping as used in
  `src/ui/main_window.py`) and strict `json.loads`, restricted to the
  value domain above (JSON booleans, null and floats do not occur in it).
* `parse_llm_response_str`        — `src/llm/analyze_image.py,
  parse_llm_response`, the string branch.
* `anthropic_parse_content`       — the first-`{`/last-`}` extraction in
  `src/llm/llm_manager.py, AnthropicLLM.analyze_image` (the Ollama client
  has the identical extraction).
* `update_asset_title_from_result` — `src/ui/main_window.py,
  MainWindow.update_asset_title_from_result`.
* `on_result_text_changed_model`, `save_to_elabftw_model` —
  `src/ui/main_window.py` commit/edit handlers, with the inventory
  client's reply passed in explicitly.
* `config_get_value` / `config_set_value` — `src/config/settings.py,
  ConfigManager.get_value/set_value`.
* `qr` definitions                — `src/qrcode_module/qrcode_generator.py`.

Python string primitives (`strip`, `lower`, `split`, `isalnum`) are
modelled on the ASCII range; every theorem and counterexample below stays
inside that range.
-/

/-- The structured-value domain: strings, integers, lists and nested
mappings (Python dicts, kept as insertion-ordered association lists). -/
inductive JVal where
  | str (s : String)
  | int (n : Int)
  | arr (xs : List JVal)
  | obj (fields : List (String × JVal))
  deriving Repr

/-- Structural induction for the nested inductive `JVal`. -/
def JVal.myInduction (P : JVal → Prop)
    (hstr : ∀ s, P (.str s)) (hint : ∀ n, P (.int n))
    (harr : ∀ xs, (∀ x ∈ xs, P x) → P (.arr xs))
    (hobj : ∀ fs, (∀ kv ∈ fs, P kv.2) → P (.obj fs)) :
    ∀ v, P v
  | .str s => hstr s
  | .int n => hint n
  | .arr xs => harr xs (fun x hx =>
      JVal.myInduction P hstr hint harr hobj x)
  | .obj fs => hobj fs (fun kv hkv =>
      JVal.myInduction P hstr hint harr hobj kv.2)
termination_by v => sizeOf v
decreasing_by
  · have := List.sizeOf_lt_of_mem hx
    simp only [JVal.arr.sizeOf_spec]; omega
  · have h1 := List.sizeOf_lt_of_mem hkv
    have h2 : sizeOf kv.2 < sizeOf kv := by
      obtain ⟨a, b⟩ := kv; simp only [Prod.mk.sizeOf_spec]; omega
    simp only [JVal.obj.sizeOf_spec]; omega

mutual

/-- Boolean equality on `JVal`. -/
def JVal.beq : JVal → JVal → Bool
  | .str a, .str b => a == b
  | .int a, .int b => a == b
  | .arr a, .arr b => JVal.beqList a b
  | .obj a, .obj b => JVal.beqFields a b
  | _, _ => false

/-- Boolean equality on lists of `JVal`. -/
def JVal.beqList : List JVal → List JVal → Bool
  | [], [] => true
  | x :: xs, y :: ys => JVal.beq x y && JVal.beqList xs ys
  | _, _ => false

/-- Boolean equality on field lists. -/
def JVal.beqFields : List (String × JVal) → List (String × JVal) → Bool
  | [], [] => true
  | (k, v) :: xs, (k', v') :: ys => k == k' && JVal.beq v v' && JVal.beqFields xs ys
  | _, _ => false

end

theorem JVal.beq_iff : ∀ a b : JVal, JVal.beq a b = true ↔ a = b := by
  intro a
  induction a using JVal.myInduction with
  | hstr s => intro b; cases b <;> simp [JVal.beq]
  | hint n => intro b; cases b <;> simp [JVal.beq]
  | harr xs ih =>
    intro b
    cases b with
    | arr ys =>
      simp only [JVal.beq, JVal.arr.injEq]
      induction xs generalizing ys with
      | nil => cases ys <;> simp [JVal.beqList]
      | cons x xs ihl =>
        cases ys with
        | nil => simp [JVal.beqList]
        | cons y ys =>
          simp only [JVal.beqList, Bool.and_eq_true, List.cons.injEq]
          rw [ih x (by simp)]
          rw [ihl (fun z hz => ih z (by simp [hz])) ys]
    | str s => simp [JVal.beq]
    | int n => simp [JVal.beq]
    | obj fs => simp [JVal.beq]
  | hobj fs ih =>
    intro b
    cases b with
    | obj gs =>
      simp only [JVal.beq, JVal.obj.injEq]
      induction fs generalizing gs with
      | nil => cases gs <;> simp [JVal.beqFields]
      | cons kv fs ihl =>
        cases gs with
        | nil => obtain ⟨k, v⟩ := kv; simp [JVal.beqFields]
        | cons kv' gs =>
          obtain ⟨k, v⟩ := kv; obtain ⟨k', v'⟩ := kv'
          simp only [JVal.beqFields, Bool.and_eq_true, List.cons.injEq, Prod.mk.injEq,
            beq_iff_eq]
          rw [ih (k, v) (by simp)]
          rw [ihl (fun z hz => ih z (by simp [hz])) gs]
    | str s => simp [JVal.beq]
    | int n => simp [JVal.beq]
    | arr xs => simp [JVal.beq]

instance : DecidableEq JVal := fun a b =>
  decidable_of_iff (JVal.beq a b = true) (JVal.beq_iff a b)

/-- First-occurrence lookup in an association list; on a Python dict
(whose keys are unique) this is exactly `d[k]` / `k in d`. -/
def lookupKV : List (String × JVal) → String → Option JVal
  | [], _ => none
  | (k', v) :: t, k => if k' = k then some v else lookupKV t k

/-- Python dict assignment `d[k] = v`: replace the value at the first
occurrence of `k`, keeping its position, else append. -/
def insertKV : List (String × JVal) → String → JVal → List (String × JVal)
  | [], k, v => [(k, v)]
  | (k', v') :: t, k, v => if k' = k then (k, v) :: t else (k', v') :: insertKV t k v

/-- Python truthiness of a structured value (`if x:`): empty strings,
zero, empty lists and empty dicts are falsy. -/
def pyTruthy : JVal → Bool
  | .str s => s ≠ ""
  | .int n => n ≠ 0
  | .arr xs => ¬ xs.isEmpty
  | .obj fs => ¬ fs.isEmpty

/-- The whitespace characters of Python's `str.strip()` (ASCII range). -/
def isPyWs (c : Char) : Bool :=
  c = ' ' ∨ c = '\t' ∨ c = '\n' ∨ c = '\r' ∨ c = '\x0b' ∨ c = '\x0c'

/-- Python `str.strip()` on a character list. -/
def pyStripL (cs : List Char) : List Char :=
  ((cs.dropWhile isPyWs).reverse.dropWhile isPyWs).reverse

/-- Python `str.strip()` (ASCII whitespace model). -/
def pyStrip (s : String) : String := String.mk (pyStripL s.data)

/-- Python `str.lower()` (ASCII case mapping model). -/
def pyLower (s : String) : String := String.mk (s.data.map Char.toLower)

example : pyStrip "  a b\t" = "a b" := by decide
example : pyLower "UnKnown" = "unknown" := by decide
example : pyTruthy (.str "") = false := by decide

/-! ### JSON serialization (model of Python `json.dumps`)

Default separators `", "` and `": "`; string escaping as with
`ensure_ascii=False` (the variant `main_window.py` uses when rendering the
result text): `"` and `\` get a backslash escape, the control characters
with short escapes use them, the remaining control characters use
`\u00XX`, and all other characters pass through. -/

/-- Fuel-driven decimal printer (the fuel is always ample below). -/
def natCharsAux : Nat → Nat → List Char
  | 0, _ => []
  | fuel + 1, n =>
      if n < 10 then [Nat.digitChar n]
      else natCharsAux fuel (n / 10) ++ [Nat.digitChar (n % 10)]

/-- Decimal digits of a natural number, most significant first
(`int.__repr__` for non-negative values). -/
def natChars (n : Nat) : List Char := natCharsAux (n + 1) n

theorem natCharsAux_fuel : ∀ f1 f2 n, n < f1 → n < f2 →
    natCharsAux f1 n = natCharsAux f2 n := by
  intro f1
  induction f1 with
  | zero => omega
  | succ f1 ih =>
    intro f2 n h1 h2
    match f2 with
    | 0 => omega
    | f2 + 1 =>
      simp only [natCharsAux]
      by_cases h : n < 10
      · simp [h]
      · simp only [h, if_false]
        rw [ih f2 (n / 10) (by omega) (by omega)]

/-- The recursive unfolding of `natChars`. -/
theorem natChars_eq (n : Nat) :
    natChars n = if n < 10 then [Nat.digitChar n]
      else natChars (n / 10) ++ [Nat.digitChar (n % 10)] := by
  by_cases h : n < 10
  · simp [natChars, natCharsAux, h]
  · have step : natCharsAux (n + 1) n = natCharsAux n (n / 10) ++ [Nat.digitChar (n % 10)] := by
      simp [natCharsAux, h]
    unfold natChars
    rw [step, natCharsAux_fuel n (n / 10 + 1) (n / 10) (by omega) (by omega)]
    simp [h]

/-- `int.__repr__`, as emitted by `json.dumps` for integers. -/
def intChars (n : Int) : List Char :=
  if n < 0 then '-' :: natChars n.natAbs else natChars n.toNat

/-- JSON escape of one character (`ensure_ascii=False` model). -/
def escChar (c : Char) : List Char :=
  if c = '"' then ['\\', '"']
  else if c = '\\' then ['\\', '\\']
  else if c = '\n' then ['\\', 'n']
  else if c = '\r' then ['\\', 'r']
  else if c = '\t' then ['\\', 't']
  else if c = '\x08' then ['\\', 'b']
  else if c = '\x0c' then ['\\', 'f']
  else if c.toNat < 0x20 then
    ['\\', 'u', '0', '0', Nat.digitChar (c.toNat / 16), Nat.digitChar (c.toNat % 16)]
  else [c]

/-- JSON escape of a whole string body (without the enclosing quotes). -/
def escList (cs : List Char) : List Char := (cs.map escChar).flatten

mutual

/-- `json.dumps` of one structured value, as a character list. -/
def dumpVal : JVal → List Char
  | .str s => '"' :: (escList s.data ++ ['"'])
  | .int n => intChars n
  | .arr xs => '[' :: (dumpElems xs ++ [']'])
  | .obj fs => '\x7b' :: (dumpMembers fs ++ ['\x7d'])

/-- Array elements joined by `", "`. -/
def dumpElems : List JVal → List Char
  | [] => []
  | [x] => dumpVal x
  | x :: xs => dumpVal x ++ ',' :: ' ' :: dumpElems xs

/-- Object members `"key": value` joined by `", "`. -/
def dumpMembers : List (String × JVal) → List Char
  | [] => []
  | [(k, v)] => '"' :: (escList k.data ++ '"' :: ':' :: ' ' :: dumpVal v)
  | (k, v) :: fs =>
      ('"' :: (escList k.data ++ '"' :: ':' :: ' ' :: dumpVal v)) ++ ',' :: ' ' :: dumpMembers fs

end

/-- `json.dumps` as a string. -/
def json_dumps (v : JVal) : String := String.mk (dumpVal v)

mutual

/-- Well-formedness of a structured value as a picture of Python data:
every mapping in it has pairwise-distinct keys. -/
def jvalWF : JVal → Bool
  | .str _ => true
  | .int _ => true
  | .arr xs => jvalWFList xs
  | .obj fs => decide (fs.map Prod.fst).Nodup && jvalWFFields fs

/-- `jvalWF` on a list of values. -/
def jvalWFList : List JVal → Bool
  | [] => true
  | x :: xs => jvalWF x && jvalWFList xs

/-- `jvalWF` on the values of a field list. -/
def jvalWFFields : List (String × JVal) → Bool
  | [] => true
  | (_, v) :: fs => jvalWF v && jvalWFFields fs

end

example : json_dumps (.obj [("a", .str "x"), ("b", .int (-2)), ("c", .arr [.int 10])]) =
    "\x7b\"a\": \"x\", \"b\": -2, \"c\": [10]\x7d" := by decide

/-! ### JSON parsing (model of strict Python `json.loads`)

Recursive-descent parser over a character list.  JSON whitespace is
skipped between tokens; strings support the standard escapes including
`\uXXXX` with surrogate-pair combination; numbers are integer literals
(floats do not occur in the value domain).  Objects are built with the
last-occurrence-wins dict semantics of Python. -/

/-- JSON whitespace (what `json.loads` skips between tokens). -/
def isJsonWs (c : Char) : Bool :=
  c = ' ' ∨ c = '\t' ∨ c = '\n' ∨ c = '\r'

/-- Skip JSON whitespace. -/
def skipWs (cs : List Char) : List Char := cs.dropWhile isJsonWs

/-- Value of one hexadecimal digit. -/
def hexVal? (c : Char) : Option Nat :=
  if '0' ≤ c ∧ c ≤ '9' then some (c.toNat - 48)
  else if 'a' ≤ c ∧ c ≤ 'f' then some (c.toNat - 87)
  else if 'A' ≤ c ∧ c ≤ 'F' then some (c.toNat - 55)
  else none

/-- Value of a four-digit hexadecimal escape. -/
def hex4? (a b c d : Char) : Option Nat := do
  let va ← hexVal? a
  let vb ← hexVal? b
  let vc ← hexVal? c
  let vd ← hexVal? d
  pure (((va * 16 + vb) * 16 + vc) * 16 + vd)

/-- Read four hexadecimal digits. -/
def readHex4 : List Char → Option (Nat × List Char)
  | h1 :: h2 :: h3 :: h4 :: r => (hex4? h1 h2 h3 h4).map (fun n => (n, r))
  | _ => none

mutual

/-- Parse the body of a JSON string literal (after the opening quote),
returning the decoded characters and the input after the closing quote.
Strict mode: raw control characters are rejected.  The fuel only bounds
recursion depth; every step consumes at least one character, so the
`length + 1` fuel supplied by `parseStr` is always enough. -/
def parseStrAux : Nat → List Char → Option (List Char × List Char)
  | 0, _ => none
  | _ + 1, [] => none
  | fuel + 1, c :: rest =>
    if c = '"' then some ([], rest)
    else if c = '\\' then parseEsc fuel rest
    else if c.toNat < 0x20 then none
    else (fun p => (c :: p.1, p.2)) <$> parseStrAux fuel rest

/-- Decode one backslash escape (the standard JSON escapes; `\uXXXX`
high/low surrogate pairs are combined as `json.loads` does). -/
def parseEsc : Nat → List Char → Option (List Char × List Char)
  | 0, _ => none
  | _ + 1, [] => none
  | fuel + 1, e :: r2 =>
    if e = '"' then (fun p => ('"' :: p.1, p.2)) <$> parseStrAux fuel r2
    else if e = '\\' then (fun p => ('\\' :: p.1, p.2)) <$> parseStrAux fuel r2
    else if e = '/' then (fun p => ('/' :: p.1, p.2)) <$> parseStrAux fuel r2
    else if e = 'b' then (fun p => ('\x08' :: p.1, p.2)) <$> parseStrAux fuel r2
    else if e = 'f' then (fun p => ('\x0c' :: p.1, p.2)) <$> parseStrAux fuel r2
    else if e = 'n' then (fun p => ('\n' :: p.1, p.2)) <$> parseStrAux fuel r2
    else if e = 'r' then (fun p => ('\r' :: p.1, p.2)) <$> parseStrAux fuel r2
    else if e = 't' then (fun p => ('\t' :: p.1, p.2)) <$> parseStrAux fuel r2
    else if e = 'u' then
      match readHex4 r2 with
      | none => none
      | some (x, r3) =>
        if 0xD800 ≤ x ∧ x < 0xDC00 then
          match r3 with
          | '\\' :: 'u' :: r4 =>
            match readHex4 r4 with
            | some (y, r5) =>
              if 0xDC00 ≤ y ∧ y < 0xE000 then
                (fun p =>
                  (Char.ofNat (0x10000 + (x - 0xD800) * 0x400 + (y - 0xDC00)) :: p.1, p.2))
                  <$> parseStrAux fuel r5
              else (fun p => (Char.ofNat x :: p.1, p.2)) <$> parseStrAux fuel r3
            | none => (fun p => (Char.ofNat x :: p.1, p.2)) <$> parseStrAux fuel r3
          | _ => (fun p => (Char.ofNat x :: p.1, p.2)) <$> parseStrAux fuel r3
        else (fun p => (Char.ofNat x :: p.1, p.2)) <$> parseStrAux fuel r3
    else none

end

/-- Parse a string-literal body with ample fuel. -/
def parseStr (cs : List Char) : Option (List Char × List Char) :=
  parseStrAux (cs.length + 1) cs

/-- Accumulate a run of decimal digits. -/
def parseDigitsAux (acc : Nat) : List Char → Nat × List Char
  | [] => (acc, [])
  | c :: rest =>
      if c.isDigit then parseDigitsAux (acc * 10 + (c.toNat - 48)) rest
      else (acc, c :: rest)

/-- Parse a JSON integer literal (optional minus sign, digit run). -/
def parseIntFrom : List Char → Option (JVal × List Char)
  | [] => none
  | c :: rest =>
      if c = '-' then
        match rest with
        | [] => none
        | d :: rest2 =>
            if d.isDigit then
              let p := parseDigitsAux (d.toNat - 48) rest2
              some (.int (-(p.1 : Int)), p.2)
            else none
      else if c.isDigit then
        let p := parseDigitsAux (c.toNat - 48) rest
        some (.int (p.1 : Int), p.2)
      else none

/-- Build a Python dict from parsed members: last occurrence of a key
wins, as in `json.loads`. -/
def buildObj (ms : List (String × JVal)) : List (String × JVal) :=
  ms.foldl (fun acc kv => insertKV acc kv.1 kv.2) []

mutual

/-- Parse one JSON value. -/
def parseVal : Nat → List Char → Option (JVal × List Char)
  | 0, _ => none
  | fuel + 1, cs =>
    match skipWs cs with
    | [] => none
    | c :: rest =>
      if c = '"' then (fun p => (JVal.str (String.mk p.1), p.2)) <$> parseStr rest
      else if c = '[' then
        match skipWs rest with
        | ']' :: rest2 => some (.arr [], rest2)
        | _ => (fun p => (JVal.arr p.1, p.2)) <$> parseElems fuel rest
      else if c = '\x7b' then
        match skipWs rest with
        | '\x7d' :: rest2 => some (.obj [], rest2)
        | _ => (fun p => (JVal.obj (buildObj p.1), p.2)) <$> parseMembers fuel rest
      else if c = '-' ∨ c.isDigit then parseIntFrom (c :: rest)
      else none

/-- Parse the elements of a non-empty JSON array, up to and including the
closing bracket. -/
def parseElems : Nat → List Char → Option (List JVal × List Char)
  | 0, _ => none
  | fuel + 1, cs => do
    let (v, r) ← parseVal fuel cs
    match skipWs r with
    | ',' :: r2 => do
        let (vs, r3) ← parseElems fuel r2
        pure (v :: vs, r3)
    | ']' :: r2 => pure ([v], r2)
    | _ => none

/-- Parse the members of a non-empty JSON object, up to and including the
closing brace. -/
def parseMembers : Nat → List Char → Option (List (String × JVal) × List Char)
  | 0, _ => none
  | fuel + 1, cs =>
    match skipWs cs with
    | '"' :: r => do
        let (kcs, r2) ← parseStr r
        match skipWs r2 with
        | ':' :: r3 => do
            let (v, r4) ← parseVal fuel r3
            match skipWs r4 with
            | ',' :: r5 => do
                let (ms, r6) ← parseMembers fuel r5
                pure ((String.mk kcs, v) :: ms, r6)
            | '\x7d' :: r5 => pure ([(String.mk kcs, v)], r5)
            | _ => none
        | _ => none
    | _ => none

end

/-- Strict `json.loads` on a character list: parse one value, allow only
trailing whitespace. -/
def json_loads_chars (cs : List Char) : Option JVal :=
  match parseVal (cs.length + 1) cs with
  | some (v, r) => if skipWs r = [] then some v else none
  | none => none

/-- Strict `json.loads` (restricted to the structured-value domain). -/
def json_loads (s : String) : Option JVal := json_loads_chars s.data

example : json_loads "\x7b\"a\": [1, -2], \"b\": \"x\\ny\"\x7d" =
    some (.obj [("a", .arr [.int 1, .int (-2)]), ("b", .str "x\ny")]) := by decide
example : json_loads "not json" = none := by decide
example : json_loads "  \x7b\x7d  " = some (.obj []) := by decide
example : json_loads "\x7b\"a\": 1\x7d extra" = none := by decide
example : json_loads (json_dumps (.obj [("k", .str "a\"b\\c\x01")])) =
    some (.obj [("k", .str "a\"b\\c\x01")]) := by decide

/-! ### Response normalization (`src/llm/analyze_image.py, parse_llm_response`)
and the provider-side brace extraction (`src/llm/llm_manager.py`). -/

/-- Python `str.split(sep)` for a one-character separator, keeping empty
pieces (always returns at least one piece). -/
def pySplitChar (sep : Char) : List Char → List (List Char)
  | [] => [[]]
  | c :: t =>
      if c = sep then [] :: pySplitChar sep t
      else match pySplitChar sep t with
        | [] => [[c]]
        | p :: ps => (c :: p) :: ps

/-- Python `line.split(':', 1)` when the line contains a colon: the part
before the first colon and the part after it. -/
def splitFirstAt (sep : Char) : List Char → Option (List Char × List Char)
  | [] => none
  | c :: t =>
      if c = sep then some ([], t)
      else (fun p => (c :: p.1, p.2)) <$> splitFirstAt sep t

/-- Key normalization of the line-oriented fallback:
`key.strip().lower().replace(' ', '_')`. -/
def normKey (cs : List Char) : String :=
  String.mk (((pyStripL cs).map Char.toLower).map (fun c => if c = ' ' then '_' else c))

/-- Line-oriented `key: value` extraction: split the stripped response on
newlines, split each line at its first colon, ignore colon-free lines;
later duplicate keys overwrite earlier ones (dict assignment). -/
def lineExtract (text : String) : List (String × JVal) :=
  (pySplitChar '\n' (pyStripL text.data)).foldl
    (fun acc line =>
      match splitFirstAt ':' line with
      | none => acc
      | some (k, v) => insertKV acc (normKey k) (.str (String.mk (pyStripL v))))
    []

/-- `llm_response.strip().startswith('\x7b') and
llm_response.strip().endswith('\x7d')`. -/
def jsonBranchCond (text : String) : Bool :=
  let t := pyStripL text.data
  t.head? = some '\x7b' ∧ t.getLast? = some '\x7d'

/-- The placeholder injection: `if 'name' not in result and 'asset_name'
not in result: result['asset_name'] = "Unnamed Asset"`. -/
def injectNameStage (r : List (String × JVal)) : List (String × JVal) :=
  if (lookupKV r "name").isNone ∧ (lookupKV r "asset_name").isNone then
    insertKV r "asset_name" (.str "Unnamed Asset")
  else r

/-- The template tagging: `if template_id: result['template_id'] =
template_id` (a zero id is falsy). -/
def templateStage (r : List (String × JVal)) : Option Int → List (String × JVal)
  | some t => if t ≠ 0 then insertKV r "template_id" (.int t) else r
  | none => r

/-- The line-oriented fallback of `parse_llm_response`, including the
placeholder-name injection and the `template_id` tagging. -/
def lineFallback (text : String) (template_id : Option Int) : List (String × JVal) :=
  templateStage (injectNameStage (lineExtract text)) template_id

/-- `parse_llm_response` on a textual response: strict whole-text JSON
parse when the stripped text is brace-delimited, otherwise (or when that
parse fails) the line-oriented fallback. -/
def parse_llm_response_str (text : String) (template_id : Option Int) :
    List (String × JVal) :=
  if jsonBranchCond text then
    match json_loads text with
    | some (.obj fs) => fs
    | _ => lineFallback text template_id
  else lineFallback text template_id

/-- `content.find('\x7b')` as an index when non-negative. -/
def firstBraceIdx (cs : List Char) : Option Nat := cs.findIdx? (· = '\x7b')

/-- `content.rfind('\x7d')` as an index when non-negative. -/
def lastBraceIdx (cs : List Char) : Option Nat :=
  (cs.reverse.findIdx? (· = '\x7d')).map (fun i => cs.length - 1 - i)

/-- `AnthropicLLM.analyze_image` response handling (identical in
`OllamaLLM`): strict-JSON-parse `content[json_start:json_end+1]` between
the first `\x7b` and the last `\x7d`; on failure or when either brace is
missing, wrap the content as `raw_text`. -/
def anthropic_parse_content (content : String) : JVal :=
  match firstBraceIdx content.data, lastBraceIdx content.data with
  | some i, some j =>
    match json_loads_chars ((content.data.drop i).take (j + 1 - i)) with
    | some v => v
    | none => .obj [("raw_text", .str content)]
  | _, _ => .obj [("raw_text", .str content)]

example : parse_llm_response_str "Name: Beaker\nVolume: 500ml" none =
    [("name", .str "Beaker"), ("volume", .str "500ml")] := by decide
example : parse_llm_response_str "hello world" none =
    [("asset_name", .str "Unnamed Asset")] := by decide
example : anthropic_parse_content "prose \x7b\"a\": \"b\"\x7d tail" =
    .obj [("a", .str "b")] := by decide

/-! ### Title derivation
(`src/ui/main_window.py, MainWindow.update_asset_title_from_result`) -/

/-- The Python exceptions the embedding tracks. -/
inductive PyErr where
  | attributeError
  | typeError
  deriving Repr, DecidableEq

instance {ε α : Type} [DecidableEq ε] [DecidableEq α] : DecidableEq (Except ε α)
  | .error e, .error e' => decidable_of_iff (e = e') (by simp)
  | .error _, .ok _ => isFalse (by intro h; cases h)
  | .ok _, .error _ => isFalse (by intro h; cases h)
  | .ok a, .ok a' => decidable_of_iff (a = a') (by simp)

/-- `x.lower() != "unknown"` on a structured value: raises
`AttributeError` unless the value is a string. -/
def lowerNeUnknown : JVal → Except PyErr Bool
  | .str s => .ok (pyLower s ≠ "unknown")
  | _ => .error .attributeError

/-- The fixed priority order of top-level name fields. -/
def nameFields : List String :=
  ["name", "asset_name", "chemical_name", "equipment_name", "reagent_name",
   "product_name", "title"]

/-- The `for field in name_fields` loop: the first field that is present,
truthy, whose raw lowercase form is not "unknown" and whose stripped value
is non-empty with stripped lowercase form not "unknown" wins (`break`);
otherwise the default title stands. -/
def flatLoop (result : List (String × JVal)) : List String → Except PyErr String
  | [] => .ok "Untitled Asset"
  | f :: rest =>
    match lookupKV result f with
    | some v =>
        if pyTruthy v then
          match lowerNeUnknown v with
          | .error e => .error e
          | .ok false => flatLoop result rest
          | .ok true =>
            match v with
            | .str s =>
                let name_value := pyStrip s
                if name_value ≠ "" ∧ pyLower name_value ≠ "unknown" then .ok name_value
                else flatLoop result rest
            | _ => .error .attributeError
        else flatLoop result rest
    | none => flatLoop result rest

/-- The summary-first branch of `update_asset_title_from_result`:
`result["summary"]["asset_name"]` is used when the summary is a dict, the
value is truthy, its raw lowercase form is not "unknown" and its stripped
form is non-empty (an early `return`); a truthy non-string raises. -/
def summaryStep (result : List (String × JVal)) : Except PyErr (Option String) :=
  match lookupKV result "summary" with
  | some (.obj s) =>
    match lookupKV s "asset_name" with
    | some v =>
        if pyTruthy v then
          match lowerNeUnknown v with
          | .error e => .error e
          | .ok false => .ok none
          | .ok true =>
            match v with
            | .str str_v =>
                let name_value := pyStrip str_v
                if name_value ≠ "" then .ok (some name_value) else .ok none
            | _ => .error .attributeError
        else .ok none
    | none => .ok none
  | _ => .ok none

/-- `update_asset_title_from_result`: summary-first title extraction, then
the flat priority scan, defaulting to "Untitled Asset". -/
def update_asset_title_from_result (result : List (String × JVal)) :
    Except PyErr String :=
  match summaryStep result with
  | .error e => .error e
  | .ok (some t) => .ok t
  | .ok none => flatLoop result nameFields

example : update_asset_title_from_result
    [("summary", .obj [("asset_name", .str " Sodium Chloride ")]), ("purity", .str "99%")] =
    .ok "Sodium Chloride" := by decide
example : update_asset_title_from_result [("name", .str "Beaker"), ("volume", .str "500ml")] =
    .ok "Beaker" := by decide
example : update_asset_title_from_result [] = .ok "Untitled Asset" := by decide
example : update_asset_title_from_result [("name", .str "unknown"), ("title", .str "Flask")] =
    .ok "Flask" := by decide

/-! ### UI workflow handlers (`src/ui/main_window.py`)

The GUI widgets are modelled as explicit state; the inventory client's
reply to `create_asset_from_llm_data` is passed in as a parameter, and the
second component of `save_to_elabftw_model` records the create requests
(template id and derived title) issued to the inventory system.  The
automatic label-generation step that follows a successful save
(`generate_qrcode`) performs file/Qt I/O and is outside the model, so the
post-success `status` reflects only the save handler's own message. -/

/-- The orchestrator-relevant slice of `MainWindow`'s mutable state. -/
structure UiState where
  current_llm_result : Option JVal
  result_text : String
  current_asset_id : Option Int
  template_id : Option Int
  status : String
  save_enabled : Bool
  gen_qr_enabled : Bool
  deriving Repr, DecidableEq

/-- Python truthiness of an optional value (`if not x:` with `x = None`
falsy). -/
def optTruthy : Option JVal → Bool
  | none => false
  | some v => pyTruthy v

/-- `MainWindow.on_result_text_changed`: re-parse the edited text; on
success replace `current_llm_result`; on `JSONDecodeError` silently keep
everything (the handler has no `set_status` call, so the returned message
is always `none`). -/
def on_result_text_changed_model (st : UiState) (text : String) :
    UiState × Option String :=
  match json_loads text with
  | some v => ({ st with current_llm_result := some v, result_text := text }, none)
  | none => ({ st with result_text := text }, none)

/-- `MainWindow.save_to_elabftw`: guard on an analysis result and a
template, re-parse the edited text, derive the title, and issue one create
request to the inventory client; a granted id overwrites
`current_asset_id`. -/
def save_to_elabftw_model (st : UiState) (create_reply : Option Int) :
    UiState × List (Int × String) :=
  if ¬ optTruthy st.current_llm_result then
    ({ st with status := "Please analyze the image first" }, [])
  else
    match st.template_id with
    | none => ({ st with status := "Please select a template", save_enabled := true }, [])
    | some t =>
      if t = 0 then
        ({ st with status := "Please select a template", save_enabled := true }, [])
      else
        match json_loads st.result_text with
        | none =>
            ({ st with
                 status := "The edited result contains invalid JSON. Please correct it before saving.",
                 save_enabled := true }, [])
        | some (JVal.obj fs) =>
            match update_asset_title_from_result fs with
            | .error _ =>
                ({ st with
                     current_llm_result := some (JVal.obj fs),
                     status := "Error saving to elabFTW",
                     save_enabled := true }, [])
            | .ok title =>
                match create_reply with
                | some id =>
                    ({ st with
                         current_llm_result := some (JVal.obj fs),
                         current_asset_id := some id,
                         status := "Saved to elabFTW (ID: " ++ toString id,
                         save_enabled := true,
                         gen_qr_enabled := false }, [(t, title)])
                | none =>
                    ({ st with
                         current_llm_result := some (JVal.obj fs),
                         status := "Failed to save to elabFTW",
                         save_enabled := true }, [(t, title)])
        | some edited =>
            ({ st with
                 current_llm_result := some edited,
                 status := "Error saving to elabFTW",
                 save_enabled := true }, [])

/-! ### Configuration store (`src/config/settings.py, ConfigManager`)

`save_config` persists to disk and is outside the model; `set_value`
returns the updated in-memory document. -/

/-- Python `key_path.split('.')` (never empty). -/
def pySplitDot (s : String) : List String :=
  (pySplitChar '.' s.data).map String.mk

/-- The lookup loop of `get_value`: `value = value[key]` over the path,
with `KeyError`/`TypeError` (missing key, non-dict indexing) both ending
the walk. -/
def walkPath : JVal → List String → Option JVal
  | v, [] => some v
  | .obj fs, k :: t =>
      match lookupKV fs k with
      | some v => walkPath v t
      | none => none
  | _, _ :: _ => none

/-- `ConfigManager.get_value(key_path, default)`. -/
def config_get_value (cfg : List (String × JVal)) (key_path : String)
    (default : Option JVal) : Option JVal :=
  match walkPath (.obj cfg) (pySplitDot key_path) with
  | some v => some v
  | none => default

/-- The descent loop of `set_value`: create (or overwrite) a fresh dict
for every missing or non-dict intermediate key, then assign the last
key. -/
def setPathFields (fs : List (String × JVal)) :
    List String → JVal → List (String × JVal)
  | [], _ => fs
  | [k], v => insertKV fs k v
  | k :: k2 :: rest, v =>
      let child := match lookupKV fs k with
        | some (.obj g) => g
        | _ => []
      insertKV fs k (.obj (setPathFields child (k2 :: rest) v))

/-- `ConfigManager.set_value(key_path, value)` on the in-memory
document. -/
def config_set_value (cfg : List (String × JVal)) (key_path : String)
    (v : JVal) : List (String × JVal) :=
  setPathFields cfg (pySplitDot key_path) v

example : config_get_value (config_set_value [] "llm.api_key" (.str "k"))
    "llm.api_key" none = some (.str "k") := by decide

/-! ### Label rendering (`src/qrcode_module/qrcode_generator.py`) -/

/-- The part of `cs` before the first occurrence of `pat`, when `pat`
occurs (`s.split(pat)[0]` guarded by `pat in s`). -/
def splitBeforeFirst : List Char → List Char → Option (List Char)
  | cs, pat =>
    if pat.isPrefixOf cs then some []
    else match cs with
      | [] => none
      | c :: t => (fun p => c :: p) <$> splitBeforeFirst t pat

/-- `QRCodeGenerator.__init__`: base URL derived from the configured
`elabftw.api_url` (`api_url.split('/api/')[0]` when `'/api/'` occurs in
it, else the literal default). -/
def qr_base_url (api_url : String) : String :=
  match splitBeforeFirst api_url.data "/api/".data with
  | some pre => String.mk pre
  | none => "https://elab.local"

/-- The URL encoded by `create_asset_qrcode`
(`f"\x7bself.base_url\x7d/database.php?mode=view&id=\x7basset_id\x7d"`). -/
def create_asset_qrcode_qr_data (base_url : String) (asset_id : Int) : String :=
  base_url ++ "/database.php?mode=view&id=" ++ toString asset_id

/-- The URL encoded by `create_label`
(`f"https://elab.local/database.php?mode=view&id=\x7basset_id\x7d"`,
hard-coded). -/
def create_label_qr_data (asset_id : Int) : String :=
  "https://elab.local/database.php?mode=view&id=" ++ toString asset_id

/-- The caption drawn under the code:
`asset_info.get("title", f"Asset #\x7basset_id\x7d")`. -/
def asset_caption (info : List (String × JVal)) (asset_id : Int) : JVal :=
  (lookupKV info "title").getD (.str ("Asset #" ++ toString asset_id))

/-- Filename sanitization of `create_asset_qrcode`: keep only characters
that are alphanumeric (`str.isalnum`, ASCII model) or in `"_ -"`. -/
def sanitize_filename_chars (s : String) : String :=
  String.mk (s.data.filter (fun c => c.isAlphanum ∨ c = '_' ∨ c = ' ' ∨ c = '-'))

/-- The auto-generated label filename of `create_asset_qrcode` when no
filename is supplied: `f"\x7basset_name\x7d_\x7basset_id\x7d.png"` where
`asset_name` is the sanitized `asset_info.get("title",
f"asset_\x7basset_id\x7d")`; the later `.png`-suffix check never fires
because the name already ends in `.png`. -/
def auto_label_filename (asset_id : Int) (title : Option String) : String :=
  let base := match title with
    | some t => t
    | none => "asset_" ++ toString asset_id
  sanitize_filename_chars base ++ "_" ++ toString asset_id ++ ".png"

example : qr_base_url "https://myelab.example/api/v2" = "https://myelab.example" := by decide
example : auto_label_filename 42 (some "NaCl 99%") = "NaCl 99_42.png" := by decide
example : auto_label_filename 42 none = "asset_42_42.png" := by decide

/-! ### Association-list helper lemmas -/

theorem lookup_insertKV_self (m : List (String × JVal)) (k : String) (v : JVal) :
    lookupKV (insertKV m k v) k = some v := by
  induction m with
  | nil => simp [insertKV, lookupKV]
  | cons kv t ih =>
    obtain ⟨k', v'⟩ := kv
    by_cases h : k' = k
    · simp [insertKV, lookupKV, h]
    · simp [insertKV, lookupKV, h, ih]

theorem lookup_insertKV_ne (m : List (String × JVal)) (k k' : String) (v : JVal)
    (h : k' ≠ k) : lookupKV (insertKV m k v) k' = lookupKV m k' := by
  have hne : ¬ (k = k') := fun hh => h hh.symm
  induction m with
  | nil => simp [insertKV, lookupKV, hne]
  | cons kv t ih =>
    obtain ⟨k0, v0⟩ := kv
    by_cases h0 : k0 = k
    · subst h0
      simp [insertKV, lookupKV, hne]
    · by_cases h1 : k0 = k'
      · simp [insertKV, lookupKV, h0, h1, h]
      · simp [insertKV, lookupKV, h0, h1, ih]

theorem lookup_mem (m : List (String × JVal)) (k : String) (v : JVal)
    (h : lookupKV m k = some v) : (k, v) ∈ m := by
  induction m with
  | nil => simp [lookupKV] at h
  | cons kv t ih =>
    obtain ⟨k0, v0⟩ := kv
    by_cases h0 : k0 = k
    · subst h0
      simp [lookupKV] at h
      subst h
      simp
    · simp only [lookupKV, if_neg h0] at h
      exact List.mem_cons_of_mem _ (ih h)

theorem mem_insertKV (m : List (String × JVal)) (k k' : String) (v v' : JVal)
    (h : (k', v') ∈ insertKV m k v) : (k', v') ∈ m ∨ (k', v') = (k, v) := by
  induction m with
  | nil => simp [insertKV] at h; simp [h]
  | cons kv t ih =>
    obtain ⟨k0, v0⟩ := kv
    by_cases h0 : k0 = k
    · simp only [insertKV, if_pos h0] at h
      rcases List.mem_cons.mp h with h1 | h1
      · right; exact h1
      · left; exact List.mem_cons_of_mem _ h1
    · simp only [insertKV, if_neg h0] at h
      rcases List.mem_cons.mp h with h1 | h1
      · left; exact h1 ▸ List.mem_cons_self _ _
      · rcases ih h1 with h2 | h2
        · left; exact List.mem_cons_of_mem _ h2
        · right; exact h2

/-- Every value stored by the line-oriented extraction is a string. -/
def strValsOnly (m : List (String × JVal)) : Prop :=
  ∀ k v, (k, v) ∈ m → ∃ s, v = JVal.str s

theorem lineExtract_strVals (text : String) : strValsOnly (lineExtract text) := by
  unfold lineExtract
  generalize pySplitChar '\n' (pyStripL text.data) = lines
  have base : strValsOnly ([] : List (String × JVal)) := by
    intro k v h; simp at h
  generalize hacc : ([] : List (String × JVal)) = acc at base ⊢
  clear hacc
  induction lines generalizing acc with
  | nil => exact base
  | cons line rest ih =>
    simp only [List.foldl_cons]
    apply ih
    match hsp : splitFirstAt ':' line with
    | none => simpa [hsp] using base
    | some p =>
      simp only [hsp]
      intro k v hmem
      rcases mem_insertKV _ _ _ _ _ hmem with h1 | h1
      · exact base k v h1
      · exact ⟨_, (Prod.mk.injEq _ _ _ _ ▸ h1).2⟩

/-! ### Claim C10 — configuration set/get round trip -/

theorem pySplitChar_ne_nil (sep : Char) (cs : List Char) : pySplitChar sep cs ≠ [] := by
  cases cs with
  | nil => simp [pySplitChar]
  | cons c t =>
    by_cases h : c = sep
    · simp [pySplitChar, h]
    · simp only [pySplitChar, if_neg h]
      match hm : pySplitChar sep t with
      | [] => simp
      | p :: ps => simp

theorem walkPath_setPathFields (v : JVal) :
    ∀ (keys : List String) (fs : List (String × JVal)), keys ≠ [] →
      walkPath (.obj (setPathFields fs keys v)) keys = some v
  | [], _, h => absurd rfl h
  | [k], fs, _ => by
      simp [setPathFields, walkPath, lookup_insertKV_self]
  | k :: k2 :: rest, fs, _ => by
      simp only [setPathFields, walkPath]
      rw [lookup_insertKV_self]
      exact walkPath_setPathFields v (k2 :: rest) _ (by simp)

/-- C10 (confirmed): for every in-memory configuration document, dotted
key path and value, `set_value` followed by `get_value` on the same path
returns exactly the stored value: `set_value` materializes missing or
non-dict intermediates as fresh dicts, and `get_value` then resolves the
full path (its walk is total, so the default is returned only when the
path does not resolve). -/
theorem config_set_get_roundtrip (cfg : List (String × JVal)) (key_path : String)
    (v : JVal) (default : Option JVal) :
    config_get_value (config_set_value cfg key_path v) key_path default = some v := by
  unfold config_get_value config_set_value
  rw [walkPath_setPathFields v (pySplitDot key_path) cfg
    (by simp [pySplitDot, pySplitChar_ne_nil])]

/-! ### Claim C1 — summary-first title derivation -/

/-- C1 (counterexample): the mapping
`\x7b"summary": \x7b"asset_name": "Unknown"\x7d\x7d` satisfies the claim's
precondition — `summary.asset_name` is present, non-empty, and its trimmed
value `"Unknown"` is not the string `"unknown"` — yet title derivation
returns `"Untitled Asset"`, not the trimmed asset name: the code compares
case-insensitively (`.lower() != "unknown"`), so `"Unknown"` is rejected. -/
theorem update_title_summary_case_cex :
    update_asset_title_from_result [("summary", .obj [("asset_name", .str "Unknown")])] =
      .ok "Untitled Asset" ∧
    ("Unknown" : String) ≠ "" ∧ pyStrip "Unknown" ≠ "unknown" ∧
    pyStrip "Unknown" ≠ "Untitled Asset" := by decide

/-- C1 (corrected): when the mapping has a dict under "summary" whose
"asset_name" is a non-empty string, whose raw lowercase form is not
"unknown" (the comparison is case-insensitive and performed on the
untrimmed value), and whose trimmed form is non-empty, title derivation
returns the trimmed value verbatim, regardless of every other field. -/
theorem update_title_summary_priority (result s : List (String × JVal)) (v : String)
    (hsum : lookupKV result "summary" = some (.obj s))
    (hname : lookupKV s "asset_name" = some (.str v))
    (hne : v ≠ "") (hlow : pyLower v ≠ "unknown") (hstrip : pyStrip v ≠ "") :
    update_asset_title_from_result result = .ok (pyStrip v) := by
  simp [update_asset_title_from_result, summaryStep, hsum, hname, pyTruthy,
    lowerNeUnknown, hne, hlow, hstrip]

theorem update_title_summary_priority_witness :
    update_asset_title_from_result
      [("summary", .obj [("asset_name", .str " NaCl ")]), ("name", .str "Wrong")] =
      .ok "NaCl" :=
  update_title_summary_priority
    [("summary", .obj [("asset_name", .str " NaCl ")]), ("name", .str "Wrong")]
    [("asset_name", .str " NaCl ")] " NaCl "
    (by decide) (by decide) (by decide) (by decide) (by decide)

/-! ### Claim C4 — commit is unguarded against re-running -/

/-- C4 (counterexample): a state whose draft was already committed
(`current_asset_id = some 1`) accepts a second commit: the handler issues
another create request and overwrites `current_asset_id` with the new id
2, instead of raising an error that leaves it unchanged. -/
theorem save_recommit_cex :
    (save_to_elabftw_model
      ⟨some (.obj [("name", .str "Beaker")]), "\x7b\"name\": \"Beaker\"\x7d",
        some 1, some 3, "", true, false⟩ (some 2)).1.current_asset_id = some 2 ∧
    (save_to_elabftw_model
      ⟨some (.obj [("name", .str "Beaker")]), "\x7b\"name\": \"Beaker\"\x7d",
        some 1, some 3, "", true, false⟩ (some 2)).2 = [(3, "Beaker")] ∧
    some (2 : Int) ≠ some (1 : Int) := by decide

/-- C4 (corrected): `save_to_elabftw` has no guard on `current_asset_id`:
for every state satisfying the commit preconditions — even one whose draft
already has a record id — requesting commit again issues one more create
request to the inventory client, and a granted id overwrites
`current_asset_id`. -/
theorem save_recommit_overwrites (st : UiState) (n m t : Int)
    (fs : List (String × JVal)) (title : String)
    (hid : st.current_asset_id = some n)
    (hres : optTruthy st.current_llm_result = true)
    (htid : st.template_id = some t) (ht0 : ¬ t = 0)
    (hparse : json_loads st.result_text = some (.obj fs))
    (htitle : update_asset_title_from_result fs = .ok title) :
    (save_to_elabftw_model st (some m)).1.current_asset_id = some m ∧
    (save_to_elabftw_model st (some m)).2 = [(t, title)] := by
  unfold save_to_elabftw_model
  rw [htid]
  simp [hres, ht0, hparse, htitle]

theorem save_recommit_overwrites_witness :
    (save_to_elabftw_model
      ⟨some (.obj [("name", .str "Flask")]), "\x7b\"name\": \"Flask\"\x7d",
        some 5, some 9, "", true, false⟩ (some 6)).1.current_asset_id = some 6 ∧
    (save_to_elabftw_model
      ⟨some (.obj [("name", .str "Flask")]), "\x7b\"name\": \"Flask\"\x7d",
        some 5, some 9, "", true, false⟩ (some 6)).2 = [(9, "Flask")] :=
  save_recommit_overwrites _ 5 6 9 [("name", .str "Flask")] "Flask"
    (by decide) (by decide) (by decide) (by decide) (by decide) (by decide)

/-! ### Claim C5 — where the brace-extraction step lives -/

/-- C5 (counterexample): the textual response `x \x7b"a": "b"\x7d` does
not strict-JSON-parse as a whole, and its first `\x7b` and last `\x7d`
delimit the valid JSON object `\x7b"a": "b"\x7d`; yet `parse_llm_response`
never extracts that substring — it goes straight to the line-oriented
fallback, producing a mangled key from the prose instead of the object. -/
theorem parse_llm_response_no_extraction_cex :
    json_loads "x \x7b\"a\": \"b\"\x7d" = none ∧
    json_loads "\x7b\"a\": \"b\"\x7d" = some (.obj [("a", .str "b")]) ∧
    parse_llm_response_str "x \x7b\"a\": \"b\"\x7d" none =
      [("x_\x7b\"a\"", .str "\"b\"\x7d"), ("asset_name", .str "Unnamed Asset")] ∧
    parse_llm_response_str "x \x7b\"a\": \"b\"\x7d" none ≠ [("a", .str "b")] := by decide

/-- C5 (corrected): the first-`\x7b`/last-`\x7d` extraction lives in the
provider clients, not in `parse_llm_response`: whenever the content has a
first `\x7b` at index `i` and a last `\x7d` at index `j` and the
in-between substring strict-JSON-parses, `AnthropicLLM.analyze_image`
(and `OllamaLLM`) returns exactly that parsed value; its fallback on
extraction failure is a `raw_text` wrapper, not line-oriented extraction,
while `parse_llm_response` goes directly from the whole-text parse to the
line-oriented fallback. -/
theorem anthropic_extracts_braced_json (content : String) (i j : Nat) (v : JVal)
    (hi : firstBraceIdx content.data = some i)
    (hj : lastBraceIdx content.data = some j)
    (hload : json_loads_chars ((content.data.drop i).take (j + 1 - i)) = some v) :
    anthropic_parse_content content = v := by
  unfold anthropic_parse_content
  rw [hi, hj]
  simp [hload]

theorem anthropic_extracts_braced_json_witness :
    anthropic_parse_content "see \x7b\"a\": \"b\"\x7d ok" = .obj [("a", .str "b")] :=
  anthropic_extracts_braced_json "see \x7b\"a\": \"b\"\x7d ok" 4 13 (.obj [("a", .str "b")])
    (by decide) (by decide) (by decide)

/-! ### Claim C7 — silent rejection of unparseable edits -/

/-- C7 (counterexample): an edit whose text does not parse leaves
`current_llm_result` untouched (state unchanged, as the claim says) but
surfaces no validation hint at all — the handler's message slot is `none`,
contradicting the claim that the operator is told parsing failed. -/
theorem edit_invalid_no_hint_cex :
    (on_result_text_changed_model
      ⟨some (.obj [("name", .str "Beaker")]), "old", none, some 1, "ready", true, true⟩
      "not json").2 = none ∧
    (on_result_text_changed_model
      ⟨some (.obj [("name", .str "Beaker")]), "old", none, some 1, "ready", true, true⟩
      "not json").1.current_llm_result = some (.obj [("name", .str "Beaker")]) := by decide

/-- C7 (corrected): for every edit whose text fails to parse,
`on_result_text_changed` leaves `analysis_result` (and the rest of the
state other than the text widget) unchanged and surfaces nothing — the
failure is silently swallowed; the "invalid JSON" hint is surfaced only
when commit is requested while the text is unparseable, and that commit
path also leaves the result and record id unchanged and issues no create
request. -/
theorem edit_invalid_silent (st : UiState) (text : String)
    (h : json_loads text = none) :
    (on_result_text_changed_model st text).1.current_llm_result = st.current_llm_result ∧
    (on_result_text_changed_model st text).1.current_asset_id = st.current_asset_id ∧
    (on_result_text_changed_model st text).2 = none ∧
    (∀ (reply : Option Int) (t : Int), optTruthy st.current_llm_result = true →
      st.template_id = some t → ¬ t = 0 →
      save_to_elabftw_model { st with result_text := text } reply =
        ({ st with
             result_text := text,
             status := "The edited result contains invalid JSON. Please correct it before saving.",
             save_enabled := true }, [])) := by
  refine ⟨?_, ?_, ?_, ?_⟩
  · simp only [on_result_text_changed_model, h]
  · simp only [on_result_text_changed_model, h]
  · simp only [on_result_text_changed_model, h]
  · intro reply t hres htid ht0
    unfold save_to_elabftw_model
    rw [htid]
    simp [hres, ht0, h]

theorem edit_invalid_silent_witness :
    (on_result_text_changed_model
      ⟨some (.obj [("name", .str "Vial")]), "old", some 4, some 2, "ready", true, true⟩
      "oops \x7b").2 = none ∧
    (save_to_elabftw_model
      { (⟨some (.obj [("name", .str "Vial")]), "old", some 4, some 2, "ready", true, true⟩ :
          UiState) with result_text := "oops \x7b" }
      (some 11)).1.status =
      "The edited result contains invalid JSON. Please correct it before saving." := by
  have h := edit_invalid_silent
    ⟨some (.obj [("name", .str "Vial")]), "old", some 4, some 2, "ready", true, true⟩
    "oops \x7b" (by decide)
  refine ⟨h.2.2.1, ?_⟩
  rw [h.2.2.2 (some 11) 2 (by decide) (by decide) (by decide)]

/-! ### Claim C8 — label URLs and the configured base URL -/

theorem string_append_cancel_right (a b c : String) (h : a ++ c = b ++ c) : a = b := by
  have hd := congrArg String.data h
  rw [String.data_append, String.data_append] at hd
  cases a; cases b
  exact congrArg String.mk (List.append_cancel_right hd)

/-- C8 (counterexample): with the configured inventory API URL
`https://myelab.example/api/v2` (base `https://myelab.example`) and record
id 7, `create_asset_qrcode` encodes the config-derived URL but
`create_label` encodes a hard-coded `https://elab.local` URL — not the
URL built from the loaded configuration, refuting the claim for
`create_label`. -/
theorem create_label_hardcoded_cex :
    qr_base_url "https://myelab.example/api/v2" = "https://myelab.example" ∧
    create_asset_qrcode_qr_data (qr_base_url "https://myelab.example/api/v2") 7 =
      "https://myelab.example/database.php?mode=view&id=7" ∧
    create_label_qr_data 7 = "https://elab.local/database.php?mode=view&id=7" ∧
    create_label_qr_data 7 ≠
      create_asset_qrcode_qr_data (qr_base_url "https://myelab.example/api/v2") 7 := by
  decide

/-- C8 (corrected): `create_asset_qrcode` encodes
`<config-derived-base>/database.php?mode=view&id=<record-id>` and draws
`asset_info.get("title", ...)` as the caption, but `create_label`
hard-codes the `https://elab.local` base: for every record id its URL
equals the one `create_asset_qrcode` would produce only under that fixed
base, and whenever the configuration yields any other base the two
operations encode different URLs. -/
theorem label_urls (api_url : String) (id : Int) (info : List (String × JVal)) :
    create_asset_qrcode_qr_data (qr_base_url api_url) id =
      qr_base_url api_url ++ ("/database.php?mode=view&id=" ++ toString id) ∧
    create_label_qr_data id = create_asset_qrcode_qr_data "https://elab.local" id ∧
    asset_caption info id =
      (lookupKV info "title").getD (.str ("Asset #" ++ toString id)) ∧
    (qr_base_url api_url ≠ "https://elab.local" →
      create_asset_qrcode_qr_data (qr_base_url api_url) id ≠ create_label_qr_data id) := by
  refine ⟨by simp [create_asset_qrcode_qr_data, String.append_assoc], rfl, rfl, ?_⟩
  intro hbase heq
  apply hbase
  apply string_append_cancel_right _ _ ("/database.php?mode=view&id=" ++ toString id)
  calc qr_base_url api_url ++ ("/database.php?mode=view&id=" ++ toString id)
      = create_asset_qrcode_qr_data (qr_base_url api_url) id := by
        simp [create_asset_qrcode_qr_data, String.append_assoc]
    _ = create_label_qr_data id := heq
    _ = "https://elab.local" ++ ("/database.php?mode=view&id=" ++ toString id) := by
        unfold create_label_qr_data
        rw [← String.append_assoc]
        exact congrArg (· ++ toString id) (by decide)

theorem label_urls_witness :
    create_asset_qrcode_qr_data (qr_base_url "https://myelab.example/api/v2") 9 ≠
      create_label_qr_data 9 :=
  (label_urls "https://myelab.example/api/v2" 9 []).2.2.2 (by decide)

/-! ### Claim C9 — auto-generated label filename -/

/-- C9 (counterexample): a title that sanitizes away completely (`"???"`)
does not make the filename default to `asset_<id>`: the generated name for
record 42 is `_42.png`, which is not `asset_42.png` and does not start
with `asset`. -/
theorem label_filename_no_asset_default_cex :
    auto_label_filename 42 (some "???") = "_42.png" ∧
    ("_42.png" : String) ≠ "asset_42.png" ∧
    ¬ ("asset_".data.isPrefixOf "_42.png".data) := by decide

/-- C9 (corrected): with no explicit filename the label file's name is the
title with every character other than alphanumerics, space, underscore and
hyphen removed, followed by an underscore, the record id and `.png`; when
the title key is absent the stand-in `asset_<id>` is used as the base (so
the name becomes `asset_<id>_<id>.png`), and a title that sanitizes to
nothing yields `_<id>.png` — the code never defaults to a bare
`asset_<id>` name for an unusable title. -/
theorem label_filename_shape (id : Int) (t : String) :
    auto_label_filename id (some t) =
      sanitize_filename_chars t ++ "_" ++ toString id ++ ".png" ∧
    (sanitize_filename_chars t).data =
      t.data.filter (fun c => c.isAlphanum ∨ c = '_' ∨ c = ' ' ∨ c = '-') ∧
    auto_label_filename id none =
      sanitize_filename_chars ("asset_" ++ toString id) ++ "_" ++ toString id ++ ".png" ∧
    auto_label_filename 42 none = "asset_42_42.png" := by
  refine ⟨rfl, rfl, rfl, by decide⟩

/-! ### Claim C3 — the injected placeholder becomes the title -/

theorem lookup_templateStage (r : List (String × JVal)) (tid : Option Int)
    (key : String) (hk : key ≠ "template_id") :
    lookupKV (templateStage r tid) key = lookupKV r key := by
  match tid with
  | none => rfl
  | some t =>
    by_cases h0 : t = 0
    · simp [templateStage, h0]
    · simp only [templateStage, if_pos h0]
      exact lookup_insertKV_ne _ _ _ _ hk

/-- C3 (counterexample): the response `a laboratory item` (no colon lines)
line-extracts to nothing, so the parser injects
`asset_name = "Unnamed Asset"`; deriving a title from the resulting
mapping returns the placeholder `"Unnamed Asset"` itself — it does not
fall through to `"Untitled Asset"`, because only the literal `"unknown"`
is treated as unknown. -/
theorem placeholder_becomes_title_cex :
    parse_llm_response_str "a laboratory item" none =
      [("asset_name", .str "Unnamed Asset")] ∧
    update_asset_title_from_result (parse_llm_response_str "a laboratory item" none) =
      .ok "Unnamed Asset" ∧
    (Except.ok "Unnamed Asset" : Except PyErr String) ≠ .ok "Untitled Asset" := by decide

theorem flatLoop_finds_placeholder (m : List (String × JVal))
    (h1 : lookupKV m "name" = none)
    (h2 : lookupKV m "asset_name" = some (.str "Unnamed Asset")) :
    flatLoop m nameFields = .ok "Unnamed Asset" := by
  show flatLoop m ("name" :: "asset_name" ::
    ["chemical_name", "equipment_name", "reagent_name", "product_name", "title"]) =
    .ok "Unnamed Asset"
  rw [flatLoop, h1]
  simp only [flatLoop, h2]
  rw [if_pos (by decide)]
  rw [show lowerNeUnknown (.str "Unnamed Asset") = .ok true from by decide]
  simp only [if_pos (show pyStrip "Unnamed Asset" ≠ "" ∧
    pyLower (pyStrip "Unnamed Asset") ≠ "unknown" from by decide)]
  decide

/-- C3 (corrected): whenever the parser takes the line-oriented fallback
and the extraction yields neither a `name` nor an `asset_name` key, the
placeholder field `asset_name = "Unnamed Asset"` is injected into the
resulting mapping — and deriving a title from that mapping yields the
placeholder `"Unnamed Asset"` itself; the placeholder is not treated as
unknown-equivalent and does not fall through to `"Untitled Asset"`. -/
theorem parse_fallback_placeholder_used (text : String) (tid : Option Int)
    (hname : lookupKV (lineExtract text) "name" = none)
    (hasset : lookupKV (lineExtract text) "asset_name" = none)
    (hline : jsonBranchCond text = false ∨ json_loads text = none) :
    lookupKV (parse_llm_response_str text tid) "asset_name" =
      some (.str "Unnamed Asset") ∧
    update_asset_title_from_result (parse_llm_response_str text tid) =
      .ok "Unnamed Asset" := by
  have hparse : parse_llm_response_str text tid = lineFallback text tid := by
    unfold parse_llm_response_str
    rcases hline with h | h
    · simp [h]
    · by_cases hc : jsonBranchCond text
      · simp [hc, h]
      · simp [hc]
  have hinj : injectNameStage (lineExtract text) =
      insertKV (lineExtract text) "asset_name" (.str "Unnamed Asset") := by
    unfold injectNameStage
    simp [hname, hasset]
  have hl1 : lookupKV (lineFallback text tid) "asset_name" =
      some (.str "Unnamed Asset") := by
    rw [lineFallback, lookup_templateStage _ _ _ (by decide), hinj]
    exact lookup_insertKV_self _ _ _
  have hl2 : lookupKV (lineFallback text tid) "name" = none := by
    rw [lineFallback, lookup_templateStage _ _ _ (by decide), hinj,
      lookup_insertKV_ne _ _ _ _ (by decide)]
    exact hname
  have hl3 : lookupKV (lineFallback text tid) "summary" =
      lookupKV (lineExtract text) "summary" := by
    rw [lineFallback, lookup_templateStage _ _ _ (by decide), hinj,
      lookup_insertKV_ne _ _ _ _ (by decide)]
  have hsum : summaryStep (lineFallback text tid) = .ok none := by
    unfold summaryStep
    rw [hl3]
    match hv : lookupKV (lineExtract text) "summary" with
    | none => rfl
    | some v =>
      obtain ⟨s, rfl⟩ := lineExtract_strVals text "summary" v (lookup_mem _ _ _ hv)
      rfl
  refine ⟨hparse ▸ hl1, ?_⟩
  rw [hparse]
  unfold update_asset_title_from_result
  rw [hsum]
  exact flatLoop_finds_placeholder _ hl2 hl1

theorem parse_fallback_placeholder_used_witness :
    lookupKV (parse_llm_response_str "Volume: 500ml" (some 4)) "asset_name" =
      some (.str "Unnamed Asset") ∧
    update_asset_title_from_result (parse_llm_response_str "Volume: 500ml" (some 4)) =
      .ok "Unnamed Asset" :=
  parse_fallback_placeholder_used "Volume: 500ml" (some 4)
    (by decide) (by decide) (Or.inl (by decide))

/-! ### Claim C2 — totality and order of the flat title scan -/

/-- Spec-side scan, following §4.2 step 2's words: take the first priority
field whose trimmed value is a non-empty string with lowercase form not
"unknown", else the placeholder. -/
def firstValidFlatSpec (result : List (String × JVal)) : List String → String
  | [] => "Untitled Asset"
  | f :: rest =>
    match lookupKV result f with
    | some (.str s) =>
        if pyStrip s ≠ "" ∧ pyLower (pyStrip s) ≠ "unknown" then pyStrip s
        else firstValidFlatSpec result rest
    | _ => firstValidFlatSpec result rest

/-- The code's usable-summary-name condition (`update_asset_title`'s early
return): a string `summary.asset_name` that is non-empty, whose raw
lowercase form is not "unknown" and whose stripped form is non-empty. -/
def usableSummaryName (result : List (String × JVal)) : Option String :=
  match lookupKV result "summary" with
  | some (.obj s) =>
    match lookupKV s "asset_name" with
    | some (.str v) =>
        if v ≠ "" ∧ pyLower v ≠ "unknown" ∧ pyStrip v ≠ "" then some (pyStrip v)
        else none
    | _ => none
  | _ => none

/-- The value under `k` in `m`, when truthy, is a string (so `.lower()`
cannot raise on it). -/
def strWhenTruthyB (m : List (String × JVal)) (k : String) : Bool :=
  match lookupKV m k with
  | some (.str _) => true
  | some v => !pyTruthy v
  | none => true

/-- `strWhenTruthyB` for the summary's asset name. -/
def summaryStrOkB (result : List (String × JVal)) : Bool :=
  match lookupKV result "summary" with
  | some (.obj s) => strWhenTruthyB s "asset_name"
  | _ => true

theorem isPyWs_toLower (c : Char) (h : isPyWs c = true) : Char.toLower c = c := by
  simp only [isPyWs, Bool.or_eq_true, decide_eq_true_eq] at h
  rcases h with h | h | h | h | h | h <;> subst h <;> decide

theorem dropWhile_eq_self_of_head (p : Char → Bool) (cs : List Char)
    (h : ∀ c, cs.head? = some c → p c = false) : cs.dropWhile p = cs := by
  cases cs with
  | nil => rfl
  | cons a t => simp [List.dropWhile_cons, h a rfl]

theorem pyLower_unknown_strip (s : String) (h : pyLower s = "unknown") :
    pyStrip s = s := by
  have hd : s.data.map Char.toLower = "unknown".data := congrArg String.data h
  have hhead : ∀ c, s.data.head? = some c → isPyWs c = false := by
    intro c hc
    have hm : (s.data.map Char.toLower).head? = some (Char.toLower c) := by
      rw [List.head?_map, hc]; rfl
    rw [hd] at hm
    have hcl : Char.toLower c = 'u' := by
      have : some (Char.toLower c) = some 'u' := by rw [← hm]; rfl
      exact Option.some.inj this.symm |>.symm
    by_contra hws
    have hws' : isPyWs c = true := by simpa using hws
    have hcc := isPyWs_toLower c hws'
    rw [hcc] at hcl
    subst hcl
    simp [isPyWs] at hws'
  have hlast : ∀ c, s.data.getLast? = some c → isPyWs c = false := by
    intro c hc
    have hm : (s.data.map Char.toLower).getLast? = some (Char.toLower c) := by
      rw [List.getLast?_map, hc]; rfl
    rw [hd] at hm
    have hcl : Char.toLower c = 'n' := by
      have : some (Char.toLower c) = some 'n' := by rw [← hm]; decide
      exact Option.some.inj this.symm |>.symm
    by_contra hws
    have hws' : isPyWs c = true := by simpa using hws
    have hcc := isPyWs_toLower c hws'
    rw [hcc] at hcl
    subst hcl
    simp [isPyWs] at hws'
  have hstrip : pyStripL s.data = s.data := by
    unfold pyStripL
    rw [dropWhile_eq_self_of_head _ _ hhead]
    rw [dropWhile_eq_self_of_head _ _ (by
      intro c hc
      rw [List.head?_reverse] at hc
      exact hlast c hc)]
    exact List.reverse_reverse _
  show String.mk (pyStripL s.data) = s
  rw [hstrip]

theorem flatLoop_eq_spec (result : List (String × JVal)) :
    ∀ fields : List String, (∀ f ∈ fields, strWhenTruthyB result f = true) →
      flatLoop result fields = .ok (firstValidFlatSpec result fields) := by
  intro fields
  induction fields with
  | nil => intro _; rfl
  | cons f rest ih =>
    intro hall
    have hf := hall f (by simp)
    have hrest := ih (fun g hg => hall g (by simp [hg]))
    match hv : lookupKV result f with
    | none =>
      simp only [flatLoop, firstValidFlatSpec, hv]
      exact hrest
    | some (.str s) =>
      simp only [flatLoop, firstValidFlatSpec, hv]
      by_cases hts : s = ""
      · subst hts
        rw [if_neg (by decide)]
        rw [if_neg (by simp [show pyStrip "" = "" from rfl])]
        exact hrest
      · rw [if_pos (by simp [pyTruthy, hts])]
        by_cases hlo : pyLower s = "unknown"
        · simp only [show lowerNeUnknown (.str s) = .ok false from by
            simp [lowerNeUnknown, hlo]]
          rw [if_neg (by rw [pyLower_unknown_strip s hlo]; simp [hlo])]
          exact hrest
        · simp only [show lowerNeUnknown (.str s) = .ok true from by
            simp [lowerNeUnknown, hlo]]
          by_cases hcond : pyStrip s ≠ "" ∧ pyLower (pyStrip s) ≠ "unknown"
          · rw [if_pos hcond, if_pos hcond]
          · rw [if_neg hcond, if_neg hcond]
            exact hrest
    | some (.int n) =>
      have hnt : pyTruthy (.int n) = false := by
        simp only [strWhenTruthyB, hv, Bool.not_eq_true'] at hf
        exact hf
      simp only [flatLoop, firstValidFlatSpec, hv]
      rw [if_neg (by simp [hnt])]
      exact hrest
    | some (.arr xs) =>
      have hnt : pyTruthy (.arr xs) = false := by
        simp only [strWhenTruthyB, hv, Bool.not_eq_true'] at hf
        exact hf
      simp only [flatLoop, firstValidFlatSpec, hv]
      rw [if_neg (by simp [hnt])]
      exact hrest
    | some (.obj gs) =>
      have hnt : pyTruthy (.obj gs) = false := by
        simp only [strWhenTruthyB, hv, Bool.not_eq_true'] at hf
        exact hf
      simp only [flatLoop, firstValidFlatSpec, hv]
      rw [if_neg (by simp [hnt])]
      exact hrest

theorem summaryStep_eq_usable (result : List (String × JVal))
    (h : summaryStrOkB result = true) :
    summaryStep result = .ok (usableSummaryName result) := by
  unfold summaryStep usableSummaryName
  cases hs : lookupKV result "summary" with
  | none => simp only [hs]
  | some v =>
    cases v with
    | str s => simp only [hs]
    | int n => simp only [hs]
    | arr xs => simp only [hs]
    | obj s =>
      have h' : strWhenTruthyB s "asset_name" = true := by
        simpa only [summaryStrOkB, hs] using h
      simp only [hs]
      cases ha : lookupKV s "asset_name" with
      | none => simp only [ha]
      | some w =>
        cases w with
        | str t =>
          simp only [ha]
          by_cases ht : t = ""
          · subst ht
            rw [if_neg (by decide), if_neg (by simp)]
          · rw [if_pos (by simp [pyTruthy, ht])]
            by_cases hlo : pyLower t = "unknown"
            · simp only [show lowerNeUnknown (.str t) = .ok false from by
                simp [lowerNeUnknown, hlo]]
              rw [if_neg (by simp [hlo])]
            · simp only [show lowerNeUnknown (.str t) = .ok true from by
                simp [lowerNeUnknown, hlo]]
              by_cases hst : pyStrip t = ""
              · rw [if_neg (by simp [hst]), if_neg (by simp [hst])]
              · rw [if_pos (by simpa using hst), if_pos ⟨ht, hlo, hst⟩]
        | int n =>
          have hnt : pyTruthy (.int n) = false := by
            simp only [strWhenTruthyB, ha, Bool.not_eq_true'] at h'
            exact h'
          simp only [ha]
          rw [if_neg (by simp [hnt])]
        | arr xs =>
          have hnt : pyTruthy (.arr xs) = false := by
            simp only [strWhenTruthyB, ha, Bool.not_eq_true'] at h'
            exact h'
          simp only [ha]
          rw [if_neg (by simp [hnt])]
        | obj gs =>
          have hnt : pyTruthy (.obj gs) = false := by
            simp only [strWhenTruthyB, ha, Bool.not_eq_true'] at h'
            exact h'
          simp only [ha]
          rw [if_neg (by simp [hnt])]

theorem firstValidFlatSpec_ne_empty (result : List (String × JVal)) :
    ∀ fields, firstValidFlatSpec result fields ≠ "" := by
  intro fields
  induction fields with
  | nil => simp [firstValidFlatSpec]
  | cons f rest ih =>
    match hv : lookupKV result f with
    | none => simpa only [firstValidFlatSpec, hv] using ih
    | some (.int n) => simpa only [firstValidFlatSpec, hv] using ih
    | some (.arr xs) => simpa only [firstValidFlatSpec, hv] using ih
    | some (.obj gs) => simpa only [firstValidFlatSpec, hv] using ih
    | some (.str s) =>
      simp only [firstValidFlatSpec, hv]
      by_cases hcond : pyStrip s ≠ "" ∧ pyLower (pyStrip s) ≠ "unknown"
      · rw [if_pos hcond]; exact hcond.1
      · rw [if_neg hcond]; exact ih

theorem usableSummaryName_ne_empty (result : List (String × JVal)) (t : String)
    (h : usableSummaryName result = some t) : t ≠ "" := by
  unfold usableSummaryName at h
  cases hs : lookupKV result "summary" with
  | none => simp [hs] at h
  | some v =>
    cases v with
    | str s => simp [hs] at h
    | int n => simp [hs] at h
    | arr xs => simp [hs] at h
    | obj s =>
      simp only [hs] at h
      cases ha : lookupKV s "asset_name" with
      | none => simp [ha] at h
      | some w =>
        cases w with
        | int n => simp [ha] at h
        | arr xs => simp [ha] at h
        | obj gs => simp [ha] at h
        | str v =>
          simp only [ha] at h
          by_cases hc : v ≠ "" ∧ pyLower v ≠ "unknown" ∧ pyStrip v ≠ ""
          · rw [if_pos hc] at h
            cases h
            exact hc.2.2
          · rw [if_neg hc] at h; cases h

/-- C2 (counterexample): title derivation is not total on every
analysis-result mapping: a mapping whose `name` field holds a (truthy)
list raises `AttributeError` at `.lower()` instead of returning a
non-empty string. -/
theorem update_title_attribute_error_cex :
    update_asset_title_from_result [("name", .arr [.str "x"])] =
      .error .attributeError := by decide

/-- C2 (corrected): restricted to mappings whose summary asset name and
whose seven priority-field values are strings whenever they are truthy
(on a truthy non-string the code raises `AttributeError` instead), title
derivation always returns a non-empty string; and when the code's
summary branch yields nothing usable, the result is exactly the spec's
flat scan: the first of `name`, `asset_name`, `chemical_name`,
`equipment_name`, `reagent_name`, `product_name`, `title` whose trimmed
value is non-empty with lowercase form not "unknown", else the literal
"Untitled Asset". -/
theorem update_title_total_flat (result : List (String × JVal))
    (hsum : summaryStrOkB result = true)
    (hflat : nameFields.all (strWhenTruthyB result) = true) :
    (∃ t, update_asset_title_from_result result = .ok t ∧ t ≠ "") ∧
    (usableSummaryName result = none →
      update_asset_title_from_result result =
        .ok (firstValidFlatSpec result nameFields)) := by
  have hflat' : ∀ f ∈ nameFields, strWhenTruthyB result f = true := by
    simpa [List.all_eq_true] using hflat
  have hss := summaryStep_eq_usable result hsum
  have hfl := flatLoop_eq_spec result nameFields hflat'
  unfold update_asset_title_from_result
  rw [hss]
  match hu : usableSummaryName result with
  | some t =>
    refine ⟨⟨t, rfl, usableSummaryName_ne_empty result t hu⟩, ?_⟩
    intro hcontra
    cases hcontra
  | none =>
    exact ⟨⟨firstValidFlatSpec result nameFields, hfl,
      firstValidFlatSpec_ne_empty result nameFields⟩, fun _ => hfl⟩

theorem update_title_total_flat_witness :
    (∃ t, update_asset_title_from_result [("chemical_name", .str " Acetone ")] =
        .ok t ∧ t ≠ "") ∧
    (usableSummaryName [("chemical_name", .str " Acetone ")] = none →
      update_asset_title_from_result [("chemical_name", .str " Acetone ")] =
        .ok (firstValidFlatSpec [("chemical_name", .str " Acetone ")] nameFields)) :=
  update_title_total_flat [("chemical_name", .str " Acetone ")] (by decide) (by decide)


/-! ### Claim C6 — printer/parser round trip

The development below proves `json_loads (json_dumps v) = some v` for
every well-formed structured value: first the string-escape round trip,
then the integer round trip, then one statement per mutual parser
function, by induction on the parser fuel. -/

theorem hexVal_digitChar : ∀ d < 16, hexVal? (Nat.digitChar d) = some d := by decide

theorem digitChar_isDigit : ∀ d < 10, (Nat.digitChar d).isDigit = true := by decide

theorem digitChar_toNat : ∀ d < 10, (Nat.digitChar d).toNat - 48 = d := by decide

/-- The head of the remaining input is not a digit (so a digit run that
ends right before it is parsed maximally). -/
def noDigitHead (cs : List Char) : Prop :=
  ∀ c, cs.head? = some c → c.isDigit = false

theorem escChar_of_plain (c : Char) (h1 : ¬ c = '"') (h2 : ¬ c = '\\')
    (h3 : ¬ c.toNat < 0x20) : escChar c = [c] := by
  unfold escChar
  rw [if_neg h1, if_neg h2]
  rw [if_neg (fun hh => h3 (by subst hh; decide))]
  rw [if_neg (fun hh => h3 (by subst hh; decide))]
  rw [if_neg (fun hh => h3 (by subst hh; decide))]
  rw [if_neg (fun hh => h3 (by subst hh; decide))]
  rw [if_neg (fun hh => h3 (by subst hh; decide))]
  rw [if_neg h3]

theorem parseEsc_u (fuel : Nat) (r : List Char) :
    parseEsc (fuel + 1) ('u' :: r) =
      match readHex4 r with
      | none => none
      | some (x, r3) =>
        if 0xD800 ≤ x ∧ x < 0xDC00 then
          match r3 with
          | '\\' :: 'u' :: r4 =>
            match readHex4 r4 with
            | some (y, r5) =>
              if 0xDC00 ≤ y ∧ y < 0xE000 then
                (fun p =>
                  (Char.ofNat (0x10000 + (x - 0xD800) * 0x400 + (y - 0xDC00)) :: p.1, p.2))
                  <$> parseStrAux fuel r5
              else (fun p => (Char.ofNat x :: p.1, p.2)) <$> parseStrAux fuel r3
            | none => (fun p => (Char.ofNat x :: p.1, p.2)) <$> parseStrAux fuel r3
          | _ => (fun p => (Char.ofNat x :: p.1, p.2)) <$> parseStrAux fuel r3
        else (fun p => (Char.ofNat x :: p.1, p.2)) <$> parseStrAux fuel r3 := by
  simp [parseEsc]

theorem parseStrAux_esc :
    ∀ (cs rest : List Char) (fuel : Nat), (escList cs).length + 1 ≤ fuel →
      parseStrAux fuel (escList cs ++ '"' :: rest) = some (cs, rest) := by
  intro cs
  induction cs with
  | nil =>
    intro rest fuel hf
    match fuel with
    | f + 1 => simp [escList, parseStrAux]
  | cons c t ih =>
    intro rest fuel hf
    have hesc : escList (c :: t) = escChar c ++ escList t := by
      simp [escList]
    rw [hesc] at hf ⊢
    by_cases h1 : c = '"'
    · subst h1
      rw [show escChar '"' = ['\\', '"'] from rfl] at hf ⊢
      match fuel with
      | g + 2 =>
        simp only [List.cons_append, List.nil_append, List.length_cons,
          List.length_append] at hf ⊢
        rw [show parseStrAux (g + 2) ('\\' :: ('"' :: (escList t ++ '"' :: rest))) =
          parseEsc (g + 1) ('"' :: (escList t ++ '"' :: rest)) from by
            simp [parseStrAux]]
        rw [show parseEsc (g + 1) ('"' :: (escList t ++ '"' :: rest)) =
          (fun p => ('"' :: p.1, p.2)) <$> parseStrAux g (escList t ++ '"' :: rest) from by
            simp [parseEsc]]
        rw [ih rest g (by omega)]
        rfl
      | 1 => simp at hf
      | 0 => simp at hf
    · by_cases h2 : c = '\\'
      · subst h2
        rw [show escChar '\\' = ['\\', '\\'] from rfl] at hf ⊢
        match fuel with
        | g + 2 =>
          simp only [List.cons_append, List.nil_append, List.length_cons,
            List.length_append] at hf ⊢
          rw [show parseStrAux (g + 2) ('\\' :: ('\\' :: (escList t ++ '"' :: rest))) =
            parseEsc (g + 1) ('\\' :: (escList t ++ '"' :: rest)) from by
              simp [parseStrAux]]
          rw [show parseEsc (g + 1) ('\\' :: (escList t ++ '"' :: rest)) =
            (fun p => ('\\' :: p.1, p.2)) <$> parseStrAux g (escList t ++ '"' :: rest) from by
              simp [parseEsc]]
          rw [ih rest g (by omega)]
          rfl
        | 1 => simp at hf
        | 0 => simp at hf
      · by_cases h3 : c.toNat < 0x20
        · by_cases hshort : c = '\n' ∨ c = '\r' ∨ c = '\t' ∨ c = '\x08' ∨ c = '\x0c'
          · obtain ⟨e, he⟩ : ∃ e, escChar c = ['\\', e] ∧
                parseEsc (fuel - 1) (e :: (escList t ++ '"' :: rest)) =
                  (fun p => (c :: p.1, p.2)) <$>
                    parseStrAux (fuel - 2) (escList t ++ '"' :: rest) := by
              rcases hshort with h | h | h | h | h <;> subst h
              · exact ⟨'n', rfl, by
                  match fuel with
                  | 0 => simp [parseEsc, parseStrAux]
                  | 1 => simp [parseEsc, parseStrAux]
                  | g + 2 => simp [parseEsc]⟩
              · exact ⟨'r', rfl, by
                  match fuel with
                  | 0 => simp [parseEsc, parseStrAux]
                  | 1 => simp [parseEsc, parseStrAux]
                  | g + 2 => simp [parseEsc]⟩
              · exact ⟨'t', rfl, by
                  match fuel with
                  | 0 => simp [parseEsc, parseStrAux]
                  | 1 => simp [parseEsc, parseStrAux]
                  | g + 2 => simp [parseEsc]⟩
              · exact ⟨'b', rfl, by
                  match fuel with
                  | 0 => simp [parseEsc, parseStrAux]
                  | 1 => simp [parseEsc, parseStrAux]
                  | g + 2 => simp [parseEsc]⟩
              · exact ⟨'f', rfl, by
                  match fuel with
                  | 0 => simp [parseEsc, parseStrAux]
                  | 1 => simp [parseEsc, parseStrAux]
                  | g + 2 => simp [parseEsc]⟩
            rw [he.1] at hf ⊢
            match fuel with
            | g + 2 =>
              simp only [List.cons_append, List.nil_append, List.length_cons,
                List.length_append] at hf ⊢
              rw [show parseStrAux (g + 2) ('\\' :: (e :: (escList t ++ '"' :: rest))) =
                parseEsc (g + 1) (e :: (escList t ++ '"' :: rest)) from by
                  simp [parseStrAux]]
              have he2 := he.2
              simp only [show g + 2 - 1 = g + 1 from rfl,
                show g + 2 - 2 = g from rfl] at he2
              rw [he2, ih rest g (by omega)]
              rfl
            | 1 => simp at hf
            | 0 => simp at hf
          · push_neg at hshort
            obtain ⟨hn, hr, htb, hb, hfc⟩ := hshort
            have hesc6 : escChar c = ['\\', 'u', '0', '0',
                Nat.digitChar (c.toNat / 16), Nat.digitChar (c.toNat % 16)] := by
              unfold escChar
              rw [if_neg h1, if_neg h2, if_neg hn, if_neg hr, if_neg htb,
                if_neg hb, if_neg hfc, if_pos h3]
            rw [hesc6] at hf ⊢
            match fuel with
            | g + 2 =>
              simp only [List.cons_append, List.nil_append, List.length_cons,
                List.length_append] at hf ⊢
              rw [show parseStrAux (g + 2) ('\\' :: ('u' :: ('0' :: ('0' ::
                (Nat.digitChar (c.toNat / 16) :: (Nat.digitChar (c.toNat % 16) ::
                  (escList t ++ '"' :: rest))))))) =
                parseEsc (g + 1) ('u' :: ('0' :: ('0' ::
                (Nat.digitChar (c.toNat / 16) :: (Nat.digitChar (c.toNat % 16) ::
                  (escList t ++ '"' :: rest)))))) from by
                  simp [parseStrAux]]
              have hhex : readHex4 ('0' :: ('0' ::
                  (Nat.digitChar (c.toNat / 16) :: (Nat.digitChar (c.toNat % 16) ::
                    (escList t ++ '"' :: rest))))) =
                  some (c.toNat, escList t ++ '"' :: rest) := by
                show (hex4? '0' '0' (Nat.digitChar (c.toNat / 16))
                  (Nat.digitChar (c.toNat % 16))).map _ = _
                unfold hex4?
                rw [show hexVal? '0' = some 0 from by decide]
                rw [hexVal_digitChar (c.toNat / 16) (by omega)]
                rw [hexVal_digitChar (c.toNat % 16) (by omega)]
                show some ((((0 * 16 + 0) * 16 + c.toNat / 16) * 16 + c.toNat % 16),
                  escList t ++ '"' :: rest) = _
                congr 2
                omega
              rw [parseEsc_u]
              simp only [hhex]
              rw [if_neg (by omega)]
              rw [ih rest g (by omega), Char.ofNat_toNat]
              rfl
            | 1 => simp at hf
            | 0 => simp at hf
        · rw [escChar_of_plain c h1 h2 h3] at hf ⊢
          match fuel with
          | g + 1 =>
            simp only [List.cons_append, List.nil_append, List.length_cons,
              List.length_append] at hf ⊢
            rw [show parseStrAux (g + 1) (c :: (escList t ++ '"' :: rest)) =
              (fun p => (c :: p.1, p.2)) <$> parseStrAux g (escList t ++ '"' :: rest) from by
                simp only [parseStrAux]
                rw [if_neg h1, if_neg h2, if_neg h3]]
            rw [ih rest g (by omega)]
            rfl
          | 0 => omega

/-- The escape round trip at the fuel `parseStr` supplies. -/
theorem parseStr_esc (cs rest : List Char) :
    parseStr (escList cs ++ '"' :: rest) = some (cs, rest) := by
  unfold parseStr
  apply parseStrAux_esc
  simp

theorem natChars_ne_nil (n : Nat) : natChars n ≠ [] := by
  rw [natChars_eq]
  by_cases h : n < 10
  · simp [h]
  · simp [h]

theorem natChars_digits (n : Nat) : ∀ c ∈ natChars n, c.isDigit = true := by
  induction n using Nat.strong_induction_on with
  | _ n ih =>
    rw [natChars_eq]
    by_cases h : n < 10
    · simp only [h, if_true]
      intro c hc
      simp only [List.mem_singleton] at hc
      subst hc
      exact digitChar_isDigit n h
    · simp only [h, if_false]
      intro c hc
      rcases List.mem_append.mp hc with h1 | h1
      · exact ih (n / 10) (by omega) c h1
      · simp only [List.mem_singleton] at h1
        subst h1
        exact digitChar_isDigit (n % 10) (by omega)

theorem parseDigitsAux_append (ds : List Char) :
    ∀ (rest : List Char) (acc : Nat), (∀ c ∈ ds, c.isDigit = true) → noDigitHead rest →
      parseDigitsAux acc (ds ++ rest) =
        (ds.foldl (fun a c => a * 10 + (c.toNat - 48)) acc, rest) := by
  induction ds with
  | nil =>
    intro rest acc _ hrest
    cases rest with
    | nil => rfl
    | cons r rs =>
      simp only [List.nil_append, List.foldl_nil, parseDigitsAux]
      rw [if_neg (by simp [hrest r rfl])]
  | cons d ds ih =>
    intro rest acc hds hrest
    simp only [List.cons_append, parseDigitsAux, List.foldl_cons]
    rw [if_pos (hds d (by simp))]
    exact ih rest _ (fun c hc => hds c (by simp [hc])) hrest

theorem foldl_natChars (n : Nat) : ∀ acc : Nat,
    (natChars n).foldl (fun a c => a * 10 + (c.toNat - 48)) acc =
      acc * 10 ^ (natChars n).length + n := by
  induction n using Nat.strong_induction_on with
  | _ n ih =>
    intro acc
    rw [natChars_eq]
    by_cases h : n < 10
    · simp only [h, if_true, List.foldl_cons, List.foldl_nil, List.length_singleton]
      rw [digitChar_toNat n h]
      ring
    · simp only [h, if_false, List.foldl_append, List.foldl_cons, List.foldl_nil,
        List.length_append, List.length_singleton]
      rw [ih (n / 10) (by omega) acc]
      rw [digitChar_toNat (n % 10) (by omega)]
      have : acc * 10 ^ ((natChars (n / 10)).length + 1) =
          acc * 10 ^ (natChars (n / 10)).length * 10 := by ring
      rw [this]
      omega

/-- Integer literal round trip: parsing the printed integer consumes
exactly its digits. -/
theorem parseIntFrom_intChars (n : Int) (rest : List Char) (h : noDigitHead rest) :
    parseIntFrom (intChars n ++ rest) = some (.int n, rest) := by
  have core : ∀ m : Nat, parseDigitsAux 0 (natChars m ++ rest) = (m, rest) := by
    intro m
    rw [parseDigitsAux_append (natChars m) rest 0 (natChars_digits m) h]
    rw [foldl_natChars m 0]
    simp
  by_cases hn : n < 0
  · rw [show intChars n = '-' :: natChars n.natAbs from by simp [intChars, hn]]
    obtain ⟨d, ds, hds⟩ : ∃ d ds, natChars n.natAbs = d :: ds := by
      match hx : natChars n.natAbs with
      | [] => exact absurd hx (natChars_ne_nil _)
      | d :: ds => exact ⟨d, ds, rfl⟩
    have hd : d.isDigit = true := natChars_digits n.natAbs d (by rw [hds]; simp)
    rw [hds]
    simp only [List.cons_append, parseIntFrom]
    rw [if_pos trivial, if_pos hd]
    have hcore := core n.natAbs
    rw [hds] at hcore
    simp only [List.cons_append, parseDigitsAux, if_pos hd, List.append_eq] at hcore
    have hz : (0 : Nat) * 10 + (d.toNat - 48) = d.toNat - 48 := by omega
    rw [hz] at hcore
    rw [hcore]
    simp only [Option.some.injEq, Prod.mk.injEq, JVal.int.injEq]
    constructor
    · omega
    · trivial
  · rw [show intChars n = natChars n.toNat from by simp [intChars, hn]]
    obtain ⟨d, ds, hds⟩ : ∃ d ds, natChars n.toNat = d :: ds := by
      match hx : natChars n.toNat with
      | [] => exact absurd hx (natChars_ne_nil _)
      | d :: ds => exact ⟨d, ds, rfl⟩
    have hd : d.isDigit = true := natChars_digits n.toNat d (by rw [hds]; simp)
    have hdm : ¬ d = '-' := by
      intro hh
      rw [hh] at hd
      cases hd
    rw [hds]
    simp only [List.cons_append, parseIntFrom]
    rw [if_neg hdm, if_pos hd]
    have hcore := core n.toNat
    rw [hds] at hcore
    simp only [List.cons_append, parseDigitsAux, if_pos hd, List.append_eq] at hcore
    have hz : (0 : Nat) * 10 + (d.toNat - 48) = d.toNat - 48 := by omega
    rw [hz] at hcore
    rw [hcore]
    simp only [Option.some.injEq, Prod.mk.injEq, JVal.int.injEq]
    constructor
    · omega
    · trivial

/-- The first character of a dumped value: a quote, bracket, brace, minus
sign or digit. -/
def goodHead (c : Char) : Prop :=
  c = '"' ∨ c = '[' ∨ c = '\x7b' ∨ c = '-' ∨ c.isDigit = true

theorem goodHead_not_ws (c : Char) (h : goodHead c) : isJsonWs c = false := by
  rcases h with h | h | h | h | h
  · subst h; decide
  · subst h; decide
  · subst h; decide
  · subst h; decide
  · match hc : isJsonWs c with
    | false => rfl
    | true =>
      simp only [isJsonWs, Bool.or_eq_true, decide_eq_true_eq] at hc
      rcases hc with h1 | h1 | h1 | h1 <;> subst h1 <;> cases h

theorem goodHead_ne (c : Char) (h : goodHead c) (d : Char)
    (hd : d = ']' ∨ d = '\x7d' ∨ d = ',' ∨ d = ':') : ¬ c = d := by
  intro hcd
  subst hcd
  rcases h with h | h | h | h | h <;>
    (rcases hd with h1 | h1 | h1 | h1 <;> subst h1 <;> first | cases h | exact absurd h (by decide))

theorem skipWs_cons_not_ws (c : Char) (cs : List Char) (h : isJsonWs c = false) :
    skipWs (c :: cs) = c :: cs := by
  simp [skipWs, List.dropWhile_cons, h]

theorem skipWs_cons_ws (c : Char) (cs : List Char) (h : isJsonWs c = true) :
    skipWs (c :: cs) = skipWs cs := by
  simp [skipWs, List.dropWhile_cons, h]

theorem dumpVal_head (v : JVal) : ∃ c cs, dumpVal v = c :: cs ∧ goodHead c := by
  cases v with
  | str s => exact ⟨'"', _, rfl, Or.inl rfl⟩
  | arr xs => exact ⟨'[', _, rfl, Or.inr (Or.inl rfl)⟩
  | obj fs => exact ⟨'\x7b', _, rfl, Or.inr (Or.inr (Or.inl rfl))⟩
  | int n =>
    by_cases hn : n < 0
    · refine ⟨'-', natChars n.natAbs, ?_, Or.inr (Or.inr (Or.inr (Or.inl rfl)))⟩
      simp [dumpVal, intChars, hn]
    · obtain ⟨d, ds, hds⟩ : ∃ d ds, natChars n.toNat = d :: ds := by
        match hx : natChars n.toNat with
        | [] => exact absurd hx (natChars_ne_nil _)
        | d :: ds => exact ⟨d, ds, rfl⟩
      refine ⟨d, ds, ?_, Or.inr (Or.inr (Or.inr (Or.inr ?_)))⟩
      · simp [dumpVal, intChars, hn, hds]
      · exact natChars_digits n.toNat d (by rw [hds]; simp)

theorem dumpElems_head (xs : List JVal) (h : xs ≠ []) :
    ∃ c cs, dumpElems xs = c :: cs ∧ goodHead c := by
  match xs with
  | [] => exact absurd rfl h
  | [x] =>
    obtain ⟨c, cs, hc, hg⟩ := dumpVal_head x
    exact ⟨c, cs, by simp [dumpElems, hc], hg⟩
  | x :: y :: t =>
    obtain ⟨c, cs, hc, hg⟩ := dumpVal_head x
    exact ⟨c, cs ++ ',' :: ' ' :: dumpElems (y :: t), by simp [dumpElems, hc], hg⟩

theorem dumpMembers_head (fs : List (String × JVal)) (h : fs ≠ []) :
    ∃ cs, dumpMembers fs = '"' :: cs := by
  match fs with
  | [] => exact absurd rfl h
  | [(k, v)] => exact ⟨_, rfl⟩
  | (k, v) :: m :: t => exact ⟨_, rfl⟩

mutual

/-- Fuel needed by `parseVal` on the dump of a value. -/
def needB : JVal → Nat
  | .str _ => 1
  | .int _ => 1
  | .arr xs => 1 + needL xs
  | .obj fs => 1 + needM fs

/-- Fuel needed by `parseElems` on dumped elements. -/
def needL : List JVal → Nat
  | [] => 0
  | x :: t => 1 + needB x + needL t

/-- Fuel needed by `parseMembers` on dumped members. -/
def needM : List (String × JVal) → Nat
  | [] => 0
  | (_, v) :: t => 1 + needB v + needM t

end

theorem needB_pos (v : JVal) : 1 ≤ needB v := by
  cases v <;> simp [needB] <;> omega

theorem intChars_ne_nil (n : Int) : intChars n ≠ [] := by
  unfold intChars
  by_cases hn : n < 0
  · simp [hn]
  · simp [hn, natChars_ne_nil]

theorem needL_le (xs : List JVal) (h : ∀ x ∈ xs, needB x ≤ (dumpVal x).length) :
    needL xs ≤ (dumpElems xs).length + 1 := by
  match xs with
  | [] => simp [needL, dumpElems]
  | [x] =>
    have := h x (by simp)
    simp only [needL, dumpElems]
    omega
  | x :: y :: t =>
    have h1 := h x (by simp)
    have h2 := needL_le (y :: t) (fun z hz => h z (by simp at hz ⊢; tauto))
    simp only [needL] at h2 ⊢
    simp only [dumpElems, List.length_append, List.length_cons]
    omega

theorem needM_le (fs : List (String × JVal))
    (h : ∀ kv ∈ fs, needB kv.2 ≤ (dumpVal kv.2).length) :
    needM fs ≤ (dumpMembers fs).length + 1 := by
  match fs with
  | [] => simp [needM, dumpMembers]
  | [(k, v)] =>
    have := h (k, v) (by simp)
    simp only [needM, dumpMembers, List.length_cons, List.length_append]
    simp at this
    omega
  | (k, v) :: m :: t =>
    have h1 := h (k, v) (by simp)
    have h2 := needM_le (m :: t) (fun z hz => h z (by simp at hz ⊢; tauto))
    simp only [needM] at h2 ⊢
    simp only [dumpMembers, List.length_append, List.length_cons]
    simp at h1
    omega

theorem needB_le_length (v : JVal) : needB v ≤ (dumpVal v).length := by
  induction v using JVal.myInduction with
  | hstr s => simp [needB, dumpVal]
  | hint n =>
    have := intChars_ne_nil n
    have : (intChars n).length ≥ 1 := by
      cases hx : intChars n with
      | nil => exact absurd hx this
      | cons a b => simp
    simp only [needB, dumpVal]
    omega
  | harr xs ih =>
    have := needL_le xs ih
    simp only [needB, dumpVal, List.length_cons, List.length_append]
    omega
  | hobj fs ih =>
    have := needM_le fs ih
    simp only [needB, dumpVal, List.length_cons, List.length_append]
    omega

theorem insertKV_not_mem (m : List (String × JVal)) (k : String) (v : JVal)
    (h : k ∉ m.map Prod.fst) : insertKV m k v = m ++ [(k, v)] := by
  induction m with
  | nil => rfl
  | cons kv t ih =>
    obtain ⟨k0, v0⟩ := kv
    simp only [List.map_cons, List.mem_cons] at h
    push_neg at h
    have hne : ¬ k0 = k := fun hh => h.1 hh.symm
    simp only [insertKV, if_neg hne]
    rw [ih h.2]
    simp

theorem buildObj_aux (fs : List (String × JVal)) :
    ∀ acc : List (String × JVal),
      (∀ k ∈ fs.map Prod.fst, k ∉ acc.map Prod.fst) →
      (fs.map Prod.fst).Nodup →
      fs.foldl (fun a kv => insertKV a kv.1 kv.2) acc = acc ++ fs := by
  induction fs with
  | nil => intro acc _ _; simp
  | cons kv t ih =>
    intro acc hdisj hnd
    obtain ⟨k, v⟩ := kv
    simp only [List.foldl_cons]
    rw [insertKV_not_mem acc k v (hdisj k (by simp))]
    rw [ih (acc ++ [(k, v)]) ?_ ?_]
    · simp
    · intro k2 hk2
      simp only [List.map_append, List.mem_append, List.map_cons, List.map_nil,
        List.mem_singleton]
      push_neg
      constructor
      · exact hdisj k2 (by simp [hk2])
      · intro hh
        subst hh
        simp only [List.map_cons, List.nodup_cons] at hnd
        exact hnd.1 hk2
    · simp only [List.map_cons, List.nodup_cons] at hnd
      exact hnd.2

theorem buildObj_eq_self (fs : List (String × JVal))
    (h : (fs.map Prod.fst).Nodup) : buildObj fs = fs := by
  unfold buildObj
  rw [buildObj_aux fs [] (by simp) h]
  simp

/-- Soundness of the parser on dumped output, one conjunct per mutual
parser function, by induction on the fuel. -/
theorem parser_dump_sound : ∀ fuel : Nat,
    (∀ (cs : List Char) (v : JVal) (rest : List Char),
      jvalWF v = true → needB v ≤ fuel → noDigitHead rest →
      skipWs cs = dumpVal v ++ rest →
      parseVal fuel cs = some (v, rest)) ∧
    (∀ (cs : List Char) (xs : List JVal) (rest : List Char),
      xs ≠ [] → jvalWFList xs = true → needL xs ≤ fuel →
      skipWs cs = dumpElems xs ++ ']' :: rest →
      parseElems fuel cs = some (xs, rest)) ∧
    (∀ (cs : List Char) (fs : List (String × JVal)) (rest : List Char),
      fs ≠ [] → jvalWFFields fs = true → needM fs ≤ fuel →
      skipWs cs = dumpMembers fs ++ '\x7d' :: rest →
      parseMembers fuel cs = some (fs, rest)) := by
  intro fuel
  induction fuel with
  | zero =>
    refine ⟨?_, ?_, ?_⟩
    · intro cs v rest _ hneed _ _
      have := needB_pos v
      omega
    · intro cs xs rest hne _ hneed _
      match xs with
      | x :: t => simp [needL] at hneed
    · intro cs fs rest hne _ hneed _
      match fs with
      | (k, v) :: t => simp [needM] at hneed
  | succ fuel IH =>
    obtain ⟨P1, P2, P3⟩ := IH
    refine ⟨?_, ?_, ?_⟩
    · -- parseVal
      intro cs v rest hwf hneed hnd hskip
      cases v with
      | str s =>
        rw [show dumpVal (.str s) = '"' :: (escList s.data ++ ['"']) from rfl,
          List.cons_append] at hskip
        simp only [parseVal, hskip]
        rw [show (escList s.data ++ ['"']) ++ rest = escList s.data ++ '"' :: rest from
          by simp]
        rw [parseStr_esc]
        rfl
      | int n =>
        by_cases hn : n < 0
        · rw [show dumpVal (.int n) = intChars n from rfl,
            show intChars n = '-' :: natChars n.natAbs from by simp [intChars, hn],
            List.cons_append] at hskip
          simp only [parseVal, hskip]
          rw [if_neg (by decide), if_neg (by decide), if_neg (by decide),
            if_pos (by decide)]
          rw [← List.cons_append,
            show '-' :: natChars n.natAbs = intChars n from by simp [intChars, hn]]
          exact parseIntFrom_intChars n rest hnd
        · obtain ⟨d, ds, hds⟩ : ∃ d ds, natChars n.toNat = d :: ds := by
            match hx : natChars n.toNat with
            | [] => exact absurd hx (natChars_ne_nil _)
            | d :: ds => exact ⟨d, ds, rfl⟩
          have hd : d.isDigit = true := natChars_digits n.toNat d (by rw [hds]; simp)
          rw [show dumpVal (.int n) = intChars n from rfl,
            show intChars n = natChars n.toNat from by simp [intChars, hn],
            hds, List.cons_append] at hskip
          simp only [parseVal, hskip]
          rw [if_neg (by intro hh; rw [hh] at hd; exact absurd hd (by decide)),
            if_neg (by intro hh; rw [hh] at hd; exact absurd hd (by decide)),
            if_neg (by intro hh; rw [hh] at hd; exact absurd hd (by decide)),
            if_pos (Or.inr hd)]
          rw [← List.cons_append, ← hds,
            show natChars n.toNat = intChars n from by simp [intChars, hn]]
          exact parseIntFrom_intChars n rest hnd
      | arr xs =>
        cases xs with
        | nil =>
          rw [show dumpVal (.arr []) = '[' :: ']' :: [] from rfl,
            List.cons_append, List.cons_append, List.nil_append] at hskip
          simp only [parseVal, hskip]
          rw [if_neg (by decide), if_pos trivial, skipWs_cons_not_ws ']' rest (by decide)]
          rfl
        | cons x t =>
          have hwfl : jvalWFList (x :: t) = true := hwf
          rw [show dumpVal (.arr (x :: t)) = '[' :: (dumpElems (x :: t) ++ [']']) from rfl,
            List.cons_append] at hskip
          obtain ⟨c0, cs0, hde, hg⟩ := dumpElems_head (x :: t) (by simp)
          have hassoc : (dumpElems (x :: t) ++ [']']) ++ rest =
              dumpElems (x :: t) ++ ']' :: rest := by simp
          have hskip2 : skipWs ((dumpElems (x :: t) ++ [']']) ++ rest) =
              dumpElems (x :: t) ++ ']' :: rest := by
            rw [hassoc, hde, List.cons_append,
              skipWs_cons_not_ws c0 _ (goodHead_not_ws c0 hg), ← List.cons_append, ← hde]
          simp only [parseVal, hskip]
          rw [if_neg (by decide), if_pos trivial, hskip2]
          split
          · rename_i rest2 heq
            rw [hde, List.cons_append, List.cons.injEq] at heq
            exact absurd heq.1 (goodHead_ne c0 hg ']' (Or.inl rfl))
          · rw [P2 ((dumpElems (x :: t) ++ [']']) ++ rest) (x :: t) rest (by simp)
              hwfl (by simp only [needB] at hneed; omega) hskip2]
            rfl
      | obj fs =>
        cases fs with
        | nil =>
          rw [show dumpVal (.obj []) = '\x7b' :: '\x7d' :: [] from rfl,
            List.cons_append, List.cons_append, List.nil_append] at hskip
          simp only [parseVal, hskip]
          rw [if_neg (by decide), if_neg (by decide), if_pos trivial,
            skipWs_cons_not_ws '\x7d' rest (by decide)]
          rfl
        | cons kv t =>
          have hwfo : (decide ((((kv :: t).map Prod.fst).Nodup)) &&
              jvalWFFields (kv :: t)) = true := hwf
          rw [Bool.and_eq_true] at hwfo
          rw [show dumpVal (.obj (kv :: t)) =
              '\x7b' :: (dumpMembers (kv :: t) ++ ['\x7d']) from rfl,
            List.cons_append] at hskip
          obtain ⟨cs0, hdm⟩ := dumpMembers_head (kv :: t) (by simp)
          have hassoc : (dumpMembers (kv :: t) ++ ['\x7d']) ++ rest =
              dumpMembers (kv :: t) ++ '\x7d' :: rest := by simp
          have hskip2 : skipWs ((dumpMembers (kv :: t) ++ ['\x7d']) ++ rest) =
              dumpMembers (kv :: t) ++ '\x7d' :: rest := by
            rw [hassoc, hdm, List.cons_append,
              skipWs_cons_not_ws '"' _ (by decide), ← List.cons_append, ← hdm]
          simp only [parseVal, hskip]
          rw [if_neg (by decide), if_neg (by decide), if_pos trivial, hskip2]
          split
          · rename_i rest2 heq
            rw [hdm, List.cons_append, List.cons.injEq] at heq
            exact absurd heq.1 (by decide)
          · rw [P3 ((dumpMembers (kv :: t) ++ ['\x7d']) ++ rest) (kv :: t) rest (by simp)
              hwfo.2 (by simp only [needB] at hneed; omega) hskip2]
            simp only [Option.map_some]
            rw [buildObj_eq_self (kv :: t) (by simpa using hwfo.1)]
    · -- parseElems
      intro cs xs rest hne hwf hneed hskip
      match xs with
      | [x] =>
        rw [show dumpElems [x] = dumpVal x from rfl] at hskip
        have hwf1 : jvalWF x = true := by
          simp only [jvalWFList, Bool.and_eq_true] at hwf
          exact hwf.1
        simp only [parseElems]
        rw [P1 cs x (']' :: rest) hwf1
          (by simp only [needL] at hneed; omega)
          (by intro c hc; cases hc; decide) hskip]
        simp only [Option.bind_eq_bind, Option.some_bind]
        rw [skipWs_cons_not_ws ']' rest (by decide)]
        rfl
      | x :: y :: t =>
        have hwf1 : (jvalWF x && jvalWFList (y :: t)) = true := hwf
        rw [Bool.and_eq_true] at hwf1
        rw [show dumpElems (x :: y :: t) =
            dumpVal x ++ ',' :: ' ' :: dumpElems (y :: t) from rfl] at hskip
        have hskip1 : skipWs cs =
            dumpVal x ++ (',' :: ' ' :: (dumpElems (y :: t) ++ ']' :: rest)) := by
          rw [hskip]; simp
        obtain ⟨c0, cs0, hde, hg⟩ := dumpElems_head (y :: t) (by simp)
        have hskipY : skipWs (' ' :: (dumpElems (y :: t) ++ ']' :: rest)) =
            dumpElems (y :: t) ++ ']' :: rest := by
          rw [skipWs_cons_ws ' ' _ (by decide), hde, List.cons_append,
            skipWs_cons_not_ws c0 _ (goodHead_not_ws c0 hg), ← List.cons_append, ← hde]
        simp only [parseElems]
        rw [P1 cs x (',' :: ' ' :: (dumpElems (y :: t) ++ ']' :: rest)) hwf1.1
          (by simp only [needL] at hneed; omega)
          (by intro c hc; cases hc; decide) hskip1]
        simp only [Option.bind_eq_bind, Option.some_bind]
        rw [skipWs_cons_not_ws ',' _ (by decide)]
        split
        · rename_i r2 heq
          rw [List.cons.injEq] at heq
          obtain ⟨-, heq2⟩ := heq
          subst heq2
          rw [P2 (' ' :: (dumpElems (y :: t) ++ ']' :: rest)) (y :: t) rest (by simp)
            hwf1.2 (by simp only [needL] at hneed ⊢; omega) hskipY]
          rfl
        · rename_i r2 heq
          rw [List.cons.injEq] at heq
          exact absurd heq.1 (by decide)
        · rename_i h1 h2
          exact absurd rfl (h1 (' ' :: (dumpElems (y :: t) ++ ']' :: rest)))
    · -- parseMembers
      intro cs fs rest hne hwf hneed hskip
      match fs with
      | [(k, v)] =>
        rw [show dumpMembers [(k, v)] =
            '"' :: (escList k.data ++ '"' :: ':' :: ' ' :: dumpVal v) from rfl,
          List.cons_append] at hskip
        have hwf1 : jvalWF v = true := by
          simp only [jvalWFFields, Bool.and_eq_true] at hwf
          exact hwf.1
        simp only [parseMembers, hskip]
        rw [show (escList k.data ++ '"' :: ':' :: ' ' :: dumpVal v) ++ '\x7d' :: rest =
            escList k.data ++ '"' :: (':' :: ' ' :: (dumpVal v ++ '\x7d' :: rest)) from
          by simp]
        rw [parseStr_esc]
        simp only [Option.bind_eq_bind, Option.some_bind]
        obtain ⟨c0, cs0, hdv, hg⟩ := dumpVal_head v
        have hskipV : skipWs (' ' :: (dumpVal v ++ '\x7d' :: rest)) =
            dumpVal v ++ '\x7d' :: rest := by
          rw [skipWs_cons_ws ' ' _ (by decide), hdv, List.cons_append,
            skipWs_cons_not_ws c0 _ (goodHead_not_ws c0 hg), ← List.cons_append, ← hdv]
        rw [skipWs_cons_not_ws ':' _ (by decide)]
        split
        · rename_i r3 heq
          rw [List.cons.injEq] at heq
          obtain ⟨-, heq2⟩ := heq
          subst heq2
          rw [P1 (' ' :: (dumpVal v ++ '\x7d' :: rest)) v ('\x7d' :: rest) hwf1
            (by simp only [needM] at hneed; omega)
            (by intro c hc; cases hc; decide) hskipV]
          simp only [Option.bind_eq_bind, Option.some_bind]
          rw [skipWs_cons_not_ws '\x7d' rest (by decide)]
          rfl
        · rename_i h1
          exact absurd rfl (h1 (' ' :: (dumpVal v ++ '\x7d' :: rest)))
      | (k, v) :: m :: t =>
        have hwf1 : (jvalWF v && jvalWFFields (m :: t)) = true := hwf
        rw [Bool.and_eq_true] at hwf1
        have hskip2 : skipWs cs = '"' :: (escList k.data ++ ('"' :: ':' :: ' ' ::
            (dumpVal v ++ ',' :: ' ' :: (dumpMembers (m :: t) ++ '\x7d' :: rest)))) := by
          rw [hskip, show dumpMembers ((k, v) :: m :: t) =
            ('"' :: (escList k.data ++ '"' :: ':' :: ' ' :: dumpVal v)) ++
              ',' :: ' ' :: dumpMembers (m :: t) from rfl]
          simp
        simp only [parseMembers, hskip2]
        rw [show escList k.data ++ ('"' :: ':' :: ' ' ::
            (dumpVal v ++ ',' :: ' ' :: (dumpMembers (m :: t) ++ '\x7d' :: rest))) =
            escList k.data ++ '"' :: (':' :: ' ' ::
            (dumpVal v ++ ',' :: ' ' :: (dumpMembers (m :: t) ++ '\x7d' :: rest))) from rfl]
        rw [parseStr_esc]
        simp only [Option.bind_eq_bind, Option.some_bind]
        obtain ⟨c0, cs0, hdv, hg⟩ := dumpVal_head v
        have hskipV : skipWs (' ' :: (dumpVal v ++
            ',' :: ' ' :: (dumpMembers (m :: t) ++ '\x7d' :: rest))) =
            dumpVal v ++ ',' :: ' ' :: (dumpMembers (m :: t) ++ '\x7d' :: rest) := by
          rw [skipWs_cons_ws ' ' _ (by decide), hdv, List.cons_append,
            skipWs_cons_not_ws c0 _ (goodHead_not_ws c0 hg), ← List.cons_append, ← hdv]
        obtain ⟨cs1, hdm⟩ := dumpMembers_head (m :: t) (by simp)
        have hskipM : skipWs (' ' :: (dumpMembers (m :: t) ++ '\x7d' :: rest)) =
            dumpMembers (m :: t) ++ '\x7d' :: rest := by
          rw [skipWs_cons_ws ' ' _ (by decide), hdm, List.cons_append,
            skipWs_cons_not_ws '"' _ (by decide), ← List.cons_append, ← hdm]
        rw [skipWs_cons_not_ws ':' _ (by decide)]
        split
        · rename_i r3 heq
          rw [List.cons.injEq] at heq
          obtain ⟨-, heq2⟩ := heq
          subst heq2
          rw [P1 _ v (',' :: ' ' :: (dumpMembers (m :: t) ++ '\x7d' :: rest)) hwf1.1
            (by simp only [needM] at hneed; omega)
            (by intro c hc; cases hc; decide) hskipV]
          simp only [Option.bind_eq_bind, Option.some_bind]
          rw [skipWs_cons_not_ws ',' _ (by decide)]
          split
          · rename_i r5 heq'
            rw [List.cons.injEq] at heq'
            obtain ⟨-, heq2'⟩ := heq'
            subst heq2'
            rw [P3 (' ' :: (dumpMembers (m :: t) ++ '\x7d' :: rest)) (m :: t) rest (by simp)
              hwf1.2 (by simp only [needM] at hneed ⊢; omega) hskipM]
            rfl
          · rename_i r5 heq'
            rw [List.cons.injEq] at heq'
            exact absurd heq'.1 (by decide)
          · rename_i h1 h2
            exact absurd rfl (h1 (' ' :: (dumpMembers (m :: t) ++ '\x7d' :: rest)))
        · rename_i h1
          exact absurd rfl (h1 (' ' :: (dumpVal v ++ ',' :: ' ' ::
            (dumpMembers (m :: t) ++ '\x7d' :: rest))))

theorem json_loads_chars_dump (v : JVal) (h : jvalWF v = true) :
    json_loads_chars (dumpVal v) = some v := by
  obtain ⟨c0, cs0, hdv, hg⟩ := dumpVal_head v
  have hskip : skipWs (dumpVal v) = dumpVal v ++ [] := by
    rw [List.append_nil, hdv]
    exact skipWs_cons_not_ws c0 cs0 (goodHead_not_ws c0 hg)
  have hp := (parser_dump_sound ((dumpVal v).length + 1)).1 (dumpVal v) v [] h
    (by have := needB_le_length v; omega)
    (by intro c hc; cases hc)
    hskip
  simp [json_loads_chars, hp, skipWs]

/-- Strict `json.loads` inverts `json.dumps` on every well-formed value. -/
theorem json_roundtrip (v : JVal) (h : jvalWF v = true) :
    json_loads (json_dumps v) = some v := json_loads_chars_dump v h

theorem jsonBranchCond_dump_obj (fs : List (String × JVal)) :
    jsonBranchCond (json_dumps (.obj fs)) = true := by
  have hstrip : pyStripL ('\x7b' :: (dumpMembers fs ++ ['\x7d'])) =
      '\x7b' :: (dumpMembers fs ++ ['\x7d']) := by
    unfold pyStripL
    rw [List.dropWhile_cons, if_neg (by decide)]
    rw [show ('\x7b' :: (dumpMembers fs ++ ['\x7d'])).reverse =
        '\x7d' :: ((dumpMembers fs).reverse ++ ['\x7b']) from by simp]
    rw [List.dropWhile_cons, if_neg (by decide)]
    simp
  simp only [jsonBranchCond]
  rw [show (json_dumps (JVal.obj fs)).data = '\x7b' :: (dumpMembers fs ++ ['\x7d'])
    from rfl, hstrip, decide_eq_true_eq]
  constructor
  · rfl
  · rw [show '\x7b' :: (dumpMembers fs ++ ['\x7d']) =
      ('\x7b' :: dumpMembers fs) ++ ['\x7d'] from by simp]
    exact List.getLast?_concat _

/-- C6: for every structured mapping (a dict value: distinct keys,
well-formed throughout), parsing the strict JSON serialization with no
template id supplied returns the mapping itself. -/
theorem parse_roundtrip (fs : List (String × JVal))
    (h : jvalWF (.obj fs) = true) :
    parse_llm_response_str (json_dumps (.obj fs)) none = fs := by
  have hload : json_loads (json_dumps (.obj fs)) = some (.obj fs) :=
    json_roundtrip (.obj fs) h
  simp only [parse_llm_response_str, jsonBranchCond_dump_obj fs, if_true, hload]

/-- Concrete round trip through the claim theorem. -/
theorem parse_roundtrip_witness :
    jvalWF (.obj [("a", .arr [.int 1, .int (-2)]), ("b", .str "x\ny")]) = true ∧
    parse_llm_response_str
      (json_dumps (.obj [("a", .arr [.int 1, .int (-2)]), ("b", .str "x\ny")]))
      none = [("a", .arr [.int 1, .int (-2)]), ("b", .str "x\ny")] :=
  ⟨by decide, parse_roundtrip [("a", .arr [.int 1, .int (-2)]), ("b", .str "x\ny")]
    (by decide)⟩
